import Mathlib

/-!
Verification of the madVisor metric ingestion and time-series engine.

The Go source is embedded shallowly: float64 values and timestamps are
modelled as rationals, Go slices as Lean lists, Go maps over string keys as
association lists, and strings as lists of characters. Fallible operations
return Option. Each section mirrors one part of the source
(cmd/madvisor/main.go and the unit-classifier file).
-/

namespace MadVisor

/-- Strings are modelled as lists of characters. -/
abbrev Str := List Char

/-! ## Ring buffer series (metricSeries in cmd/madvisor/main.go) -/

/-- Capacity of every series ring buffer (constant ringSize = 120). -/
def ringSize : ℕ := 120

/-- Ring-buffer series: the values and times backing arrays have length
ringSize, idx is the write index, full marks that the buffer wrapped. -/
structure metricSeries where
  values : List ℚ
  times : List ℚ
  idx : ℕ
  full : Bool
deriving DecidableEq

namespace metricSeries

/-- Translation of metricSeries.pushAt (push is pushAt at the current clock):
write value and timestamp at idx, advance idx modulo ringSize, set full when
the index wraps to 0. -/
def pushAt (s : metricSeries) (v t : ℚ) : metricSeries :=
  let idx2 := (s.idx + 1) % ringSize
  { values := s.values.set s.idx v
    times := s.times.set s.idx t
    idx := idx2
    full := if idx2 = 0 then true else s.full }

/-- Translation of metricSeries.count. -/
def count (s : metricSeries) : ℕ := if s.full then ringSize else s.idx

/-- Translation of metricSeries.slice: chronological copy of the values; a
full buffer is unrolled starting at the write index, a partial buffer
returns the written prefix. -/
def slice (s : metricSeries) : List ℚ :=
  if !s.full then s.values.take s.idx
  else s.values.drop s.idx ++ s.values.take s.idx

/-- Translation of metricSeries.last: zero for an empty buffer, else the
value just behind the write index. -/
def last (s : metricSeries) : ℚ :=
  if s.idx = 0 ∧ s.full = false then 0
  else s.values.getD (if s.idx = 0 then ringSize - 1 else s.idx - 1) 0

/-- Chronological (oldest to newest) list of (value, time) pairs held by the
buffer, unrolled exactly like slice. This derived view is used to state the
specification claims about the buffer contents. -/
def chron (s : metricSeries) : List (ℚ × ℚ) :=
  let ps := s.values.zip s.times
  if !s.full then ps.take s.idx else ps.drop s.idx ++ ps.take s.idx

/-- Structural invariant maintained by the constructor and pushAt: backing
arrays have length ringSize and the write index is in range. -/
def wf (s : metricSeries) : Prop :=
  s.values.length = ringSize ∧ s.times.length = ringSize ∧ s.idx < ringSize

instance (s : metricSeries) : Decidable s.wf := by unfold wf; infer_instance

/-- Fresh series exactly as allocated by store.update: zero-filled arrays
(make([]float64, ringSize) and the zero time), write index 0, not full. -/
def init : metricSeries :=
  { values := List.replicate ringSize 0
    times := List.replicate ringSize 0
    idx := 0
    full := false }

/-- Pushing a list of (value, time) samples in order. -/
def pushAll (s : metricSeries) (l : List (ℚ × ℚ)) : metricSeries :=
  l.foldl (fun s p => s.pushAt p.1 p.2) s

theorem wf_init : init.wf := by
  refine ⟨?_, ?_, ?_⟩ <;> simp [init, ringSize]

theorem wf_pushAt {s : metricSeries} (h : s.wf) (v t : ℚ) : (s.pushAt v t).wf := by
  obtain ⟨h1, h2, h3⟩ := h
  refine ⟨?_, ?_, ?_⟩ <;> simp [pushAt, h1, h2]
  exact Nat.mod_lt _ (by norm_num [ringSize])

theorem wf_pushAll {s : metricSeries} (h : s.wf) (l : List (ℚ × ℚ)) :
    (s.pushAll l).wf := by
  induction l generalizing s with
  | nil => exact h
  | cons p rest ih => exact ih (wf_pushAt h p.1 p.2)

theorem pushAll_append (s : metricSeries) (l1 l2 : List (ℚ × ℚ)) :
    s.pushAll (l1 ++ l2) = (s.pushAll l1).pushAll l2 :=
  List.foldl_append _ _ _ _

/-- Setting both backing arrays at the same index sets the zipped list. -/
theorem zip_set (l1 l2 : List ℚ) (i : ℕ) (a b : ℚ) :
    (l1.set i a).zip (l2.set i b) = (l1.zip l2).set i (a, b) := by
  induction l1 generalizing l2 i with
  | nil => simp
  | cons x xs ih =>
    cases l2 with
    | nil => simp
    | cons y ys =>
      cases i with
      | zero => rfl
      | succ n => exact congrArg (List.cons (x, y)) (ih ys n)

theorem chron_length {s : metricSeries} (h : s.wf) : s.chron.length = s.count := by
  obtain ⟨h1, h2, h3⟩ := h
  unfold chron count
  cases hf : s.full <;> simp [List.length_zip, h1, h2, le_of_lt h3]

/-- Key step lemma: one push appends the new sample to the chronological
view, dropping the oldest sample when the buffer is already full. -/
theorem chron_pushAt {s : metricSeries} (h : s.wf) (v t : ℚ) :
    (s.pushAt v t).chron =
      if s.count < ringSize then s.chron ++ [(v, t)] else s.chron.tail ++ [(v, t)] := by
  obtain ⟨h1, h2, h3⟩ := h
  have hps : (s.values.zip s.times).length = ringSize := by
    simp [List.length_zip, h1, h2]
  have hvals : (s.pushAt v t).values = s.values.set s.idx v := rfl
  have htimes : (s.pushAt v t).times = s.times.set s.idx t := rfl
  have hidx2 : (s.pushAt v t).idx = (s.idx + 1) % ringSize := rfl
  have hset : (s.pushAt v t).values.zip (s.pushAt v t).times =
      (s.values.zip s.times).set s.idx (v, t) := by
    rw [hvals, htimes]; exact zip_set _ _ _ _ _
  have hsplit : (s.values.zip s.times).set s.idx (v, t) =
      (s.values.zip s.times).take s.idx ++ (v, t) :: (s.values.zip s.times).drop (s.idx + 1) := by
    rw [List.set_eq_take_append_cons_drop, if_pos (by omega)]
  have hlentake : ((s.values.zip s.times).take s.idx).length = s.idx := by
    simp [hps]; omega
  -- the two possible new write indices
  rcases Nat.lt_or_ge (s.idx + 1) ringSize with hidx | hidx
  · -- no wrap: new index is idx + 1, full flag unchanged
    have hmod : (s.idx + 1) % ringSize = s.idx + 1 := Nat.mod_eq_of_lt hidx
    have hful : (s.pushAt v t).full = s.full := by
      show (if (s.idx + 1) % ringSize = 0 then true else s.full) = s.full
      rw [hmod, if_neg (by omega)]
    have htake : ((s.values.zip s.times).set s.idx (v, t)).take (s.idx + 1) =
        (s.values.zip s.times).take s.idx ++ [(v, t)] := by
      rw [hsplit, List.take_append_eq_append_take,
        List.take_of_length_le (by rw [hlentake]; omega), hlentake]
      simp
    have hdrop : ((s.values.zip s.times).set s.idx (v, t)).drop (s.idx + 1) =
        (s.values.zip s.times).drop (s.idx + 1) := by
      rw [List.drop_set, if_pos (by omega)]
    cases hf : s.full with
    | false =>
      have hc : s.count < ringSize := by simp only [count, hf]; simp; omega
      rw [if_pos hc]
      have hl : (s.pushAt v t).chron = ((s.values.zip s.times).set s.idx (v, t)).take (s.idx + 1) := by
        unfold chron
        rw [hset, hidx2, hmod, hful, hf]
        simp
      have hr : s.chron = (s.values.zip s.times).take s.idx := by
        unfold chron; rw [hf]; simp
      rw [hl, hr, htake]
    | true =>
      have hc : ¬s.count < ringSize := by simp [count, hf]
      rw [if_neg hc]
      have hl : (s.pushAt v t).chron =
          ((s.values.zip s.times).set s.idx (v, t)).drop (s.idx + 1) ++
            ((s.values.zip s.times).set s.idx (v, t)).take (s.idx + 1) := by
        unfold chron
        rw [hset, hidx2, hmod, hful, hf]
        simp
      have hr : s.chron =
          (s.values.zip s.times).drop s.idx ++ (s.values.zip s.times).take s.idx := by
        unfold chron; rw [hf]; simp
      rw [hl, hr, htake, hdrop]
      have hnn : (s.values.zip s.times).drop s.idx ≠ [] := by
        intro hnil
        have := congrArg List.length hnil
        simp [hps] at this
        omega
      rw [List.tail_append_of_ne_nil hnn, List.tail_drop, List.append_assoc]
  · -- wrap: idx = ringSize - 1, new index is 0, buffer becomes full
    have hidx119 : s.idx + 1 = ringSize := by omega
    have hmod : (s.idx + 1) % ringSize = 0 := by rw [hidx119, Nat.mod_self]
    have hful : (s.pushAt v t).full = true := by
      show (if (s.idx + 1) % ringSize = 0 then true else s.full) = true
      rw [if_pos hmod]
    have hall : (s.values.zip s.times).set s.idx (v, t) =
        (s.values.zip s.times).take s.idx ++ [(v, t)] := by
      rw [hsplit, hidx119, List.drop_eq_nil_of_le (by omega)]
    have hl : (s.pushAt v t).chron = (s.values.zip s.times).take s.idx ++ [(v, t)] := by
      unfold chron
      rw [hset, hidx2, hful, hmod]
      simpa using hall
    cases hf : s.full with
    | false =>
      have hc : s.count < ringSize := by simp only [count, hf]; simp; omega
      rw [if_pos hc, hl]
      have hr : s.chron = (s.values.zip s.times).take s.idx := by
        unfold chron; rw [hf]; simp
      rw [hr]
    | true =>
      have hc : ¬s.count < ringSize := by simp [count, hf]
      rw [if_neg hc, hl]
      have hr : s.chron =
          (s.values.zip s.times).drop s.idx ++ (s.values.zip s.times).take s.idx := by
        unfold chron; rw [hf]; simp
      rw [hr]
      have hdropcons : (s.values.zip s.times).drop s.idx =
          (s.values.zip s.times).getD s.idx (0, 0) :: (s.values.zip s.times).drop (s.idx + 1) := by
        rw [List.getD_eq_getElem _ _ (by omega)]
        exact (List.drop_eq_getElem_cons (by omega)).trans rfl
      rw [hdropcons, List.drop_eq_nil_of_le (by omega)]
      simp

theorem count_le {s : metricSeries} (h : s.wf) : s.count ≤ ringSize := by
  unfold count
  split
  · exact le_refl _
  · exact le_of_lt h.2.2

theorem count_pushAt {s : metricSeries} (h : s.wf) (v t : ℚ) :
    (s.pushAt v t).count = min (s.count + 1) ringSize := by
  have hr : ringSize = 120 := rfl
  have hcb : s.count ≤ ringSize := count_le h
  have h1 := chron_length (wf_pushAt h v t)
  have h2 := chron_length h
  have h3 := chron_pushAt h v t
  rcases Nat.lt_or_ge s.count ringSize with hc | hc
  · rw [if_pos hc] at h3
    have h4 := congrArg List.length h3
    rw [h1, List.length_append, h2] at h4
    simp at h4
    omega
  · rw [if_neg (by omega)] at h3
    have h4 := congrArg List.length h3
    rw [h1, List.length_append, List.length_tail, h2] at h4
    simp at h4
    omega

/-- After pushing any list of samples into a fresh buffer, the chronological
view is exactly the last ringSize samples pushed (all of them when fewer). -/
theorem chron_pushAll (l : List (ℚ × ℚ)) :
    (init.pushAll l).chron = l.drop (l.length - ringSize) := by
  induction l using List.reverseRecOn with
  | nil => simp [pushAll, init, chron]
  | append_singleton l x ih =>
    rw [pushAll_append]
    have hwf : (init.pushAll l).wf := wf_pushAll wf_init l
    have hcount : (init.pushAll l).count = min l.length ringSize := by
      rw [← chron_length hwf, ih]
      simp
      omega
    have hone : (init.pushAll l).pushAll [x] = (init.pushAll l).pushAt x.1 x.2 := rfl
    have hlen2 : (l ++ [x]).length = l.length + 1 := by simp
    rw [hone, chron_pushAt hwf x.1 x.2, ih, hcount, hlen2]
    rcases Nat.lt_or_ge l.length ringSize with hlt | hge
    · rw [if_pos (by omega)]
      have hz : l.length - ringSize = 0 := by omega
      have hz2 : l.length + 1 - ringSize = 0 := by omega
      rw [hz, hz2]
      simp
    · rw [if_neg (by omega)]
      rw [List.tail_drop]
      have hr : ringSize = 120 := rfl
      have heq : l.length - ringSize + 1 = l.length + 1 - ringSize := by omega
      rw [heq, @List.drop_append_of_le_length _ l [x] (l.length + 1 - ringSize) (by omega)]

theorem count_pushAll (l : List (ℚ × ℚ)) :
    (init.pushAll l).count = min l.length ringSize := by
  rw [← chron_length (wf_pushAll wf_init l), chron_pushAll]
  simp
  omega

/-- The slice of a well-formed buffer is the value component of the
chronological view. -/
theorem slice_eq_chron {s : metricSeries} (h : s.wf) :
    s.slice = s.chron.map Prod.fst := by
  obtain ⟨h1, h2, h3⟩ := h
  have hmap : (s.values.zip s.times).map Prod.fst = s.values :=
    List.map_fst_zip _ _ (by omega)
  unfold slice chron
  cases hf : s.full <;>
    simp [List.map_take, List.map_drop, hmap]

/-- getLastD agrees with getD at the last position. -/
theorem getLastD_eq_getD {α : Type} (l : List α) (d : α) :
    l.getLastD d = l.getD (l.length - 1) d := by
  rw [List.getLastD_eq_getLast?, List.getLast?_eq_getElem?, List.getD_eq_getElem?_getD]

/-- getLastD of a prefix in terms of the original list. -/
theorem take_getLastD {α : Type} (l : List α) (n : ℕ) (d : α) (h0 : 0 < n)
    (h1 : n ≤ l.length) : (l.take n).getLastD d = l.getD (n - 1) d := by
  rw [getLastD_eq_getD, List.length_take, Nat.min_eq_left h1,
    List.getD_eq_getElem?_getD, List.getD_eq_getElem?_getD,
    List.getElem?_take_of_lt (by omega)]

/-- getLastD of an append where the second part is nonempty. -/
theorem getLastD_append_right {α : Type} (A B : List α) (d : α) (h : B ≠ []) :
    (A ++ B).getLastD d = B.getLastD d := by
  rw [List.getLastD_eq_getLast?, List.getLastD_eq_getLast?, List.getLast?_append]
  cases hB : B.getLast? with
  | none => exact absurd (List.getLast?_eq_none_iff.mp hB) h
  | some b => simp

/-- The last value of a well-formed buffer is the value component of the
newest chronological sample (zero when the buffer is empty). -/
theorem last_eq_chron {s : metricSeries} (h : s.wf) :
    s.last = (s.chron.map Prod.fst).getLastD 0 := by
  rw [← slice_eq_chron h]
  obtain ⟨h1, h2, h3⟩ := h
  have hr : ringSize = 120 := rfl
  unfold last slice
  cases hf : s.full with
  | false =>
    rcases Nat.eq_zero_or_pos s.idx with hz | hpos
    · simp [hz]
    · rw [if_neg (by intro hc; omega), if_neg (by omega)]
      simp only [Bool.not_false, if_true]
      rw [take_getLastD _ _ _ hpos (by omega)]
  | true =>
    rw [if_neg (by intro hc; exact absurd hc.2 (by simp))]
    simp only [Bool.not_true, Bool.false_eq_true, if_false]
    rcases Nat.eq_zero_or_pos s.idx with hz | hpos
    · rw [if_pos hz, hz]
      simp only [List.take_zero, List.append_nil, List.drop_zero]
      rw [getLastD_eq_getD, h1]
    · rw [if_neg (by omega)]
      have htk : s.values.take s.idx ≠ [] := by
        intro hnil
        have hc := congrArg List.length hnil
        simp [h1] at hc
        omega
      rw [getLastD_append_right _ _ _ htk, take_getLastD _ _ _ hpos (by omega)]

/-- A buffer whose occupancy reaches the capacity has wrapped. -/
theorem full_of_count_eq {s : metricSeries} (h : s.wf) (hc : s.count = ringSize) :
    s.full = true := by
  obtain ⟨h1, h2, h3⟩ := h
  by_contra hf
  have hf2 : s.full = false := by
    cases hfull : s.full
    · rfl
    · exact absurd hfull hf
  unfold count at hc
  rw [hf2] at hc
  simp at hc
  exact absurd hc (by omega)

/-- The slice of a buffer freshly filled with the samples vs is the value
component of the last ringSize samples (all of them when fewer). -/
theorem slice_pushAll (vs : List (ℚ × ℚ)) :
    (init.pushAll vs).slice = (vs.map Prod.fst).drop (vs.length - ringSize) := by
  rw [slice_eq_chron (wf_pushAll wf_init vs), chron_pushAll, List.map_drop]

end metricSeries

/-- Deterministic sample list used by concrete witnesses: value i at time i. -/
def testList (n : ℕ) : List (ℚ × ℚ) :=
  (List.range n).map (fun i => ((i : ℚ), (i : ℚ)))

/-- C1: for the capacity-120 ring buffer, after 120+k pushes (0 ≤ k < 120)
the buffer is full, slice() has exactly 120 values in chronological order
(it equals the pushed values from push-index k on), slice()[0] is the value
pushed at index k, slice()[119] is the most recent push; with fewer than 120
pushes slice() is exactly the pushed values in push order; and last() is
always the most recently pushed value, 0 if nothing was pushed. -/
theorem C1_ring_buffer (vs : List (ℚ × ℚ)) :
    (∀ k, k < ringSize → vs.length = ringSize + k →
        (metricSeries.init.pushAll vs).full = true ∧
        (metricSeries.init.pushAll vs).slice.length = ringSize ∧
        (metricSeries.init.pushAll vs).slice = (vs.map Prod.fst).drop k ∧
        (metricSeries.init.pushAll vs).slice.getD 0 0 = (vs.getD k (0, 0)).1 ∧
        (metricSeries.init.pushAll vs).slice.getD (ringSize - 1) 0 =
          (vs.getLastD (0, 0)).1) ∧
    (vs.length < ringSize → (metricSeries.init.pushAll vs).slice = vs.map Prod.fst) ∧
    (metricSeries.init.pushAll vs).last = (vs.map Prod.fst).getLastD 0 := by
  have hr : ringSize = 120 := rfl
  have hwf := metricSeries.wf_pushAll metricSeries.wf_init vs
  have hslice := metricSeries.slice_pushAll vs
  refine ⟨?_, ?_, ?_⟩
  · intro k hk hlen
    have hdk : vs.length - ringSize = k := by omega
    have hk2 : k < vs.length := by omega
    refine ⟨?_, ?_, ?_, ?_, ?_⟩
    · exact metricSeries.full_of_count_eq hwf
        (by rw [metricSeries.count_pushAll, hlen,
          Nat.min_eq_right (Nat.le_add_right _ _)])
    · rw [hslice, hdk, List.length_drop, List.length_map]
      omega
    · rw [hslice, hdk]
    · rw [hslice, hdk, List.getD_eq_getElem?_getD, List.getElem?_drop,
        List.getElem?_map, Nat.add_zero, List.getElem?_eq_getElem (by simpa using hk2),
        List.getD_eq_getElem vs _ hk2]
      simp
    · rw [hslice, hdk, List.getD_eq_getElem?_getD, List.getElem?_drop,
        List.getElem?_map]
      have hidx : k + (ringSize - 1) = vs.length - 1 := by omega
      rw [hidx, List.getElem?_eq_getElem (by omega), metricSeries.getLastD_eq_getD,
        List.getD_eq_getElem vs _ (by omega)]
      simp
  · intro hlen
    have hz : vs.length - ringSize = 0 := by omega
    rw [hslice, hz, List.drop_zero]
  · rw [metricSeries.last_eq_chron hwf, metricSeries.chron_pushAll, List.map_drop]
    rcases Nat.eq_zero_or_pos vs.length with hz | hpos
    · have hvs : vs = [] := List.eq_nil_of_length_eq_zero hz
      rw [hvs]
      simp
    · have hlt : vs.length - ringSize < (vs.map Prod.fst).length := by
        rw [List.length_map]; omega
      conv_rhs =>
        rw [← List.take_append_drop (vs.length - ringSize) (vs.map Prod.fst)]
      rw [metricSeries.getLastD_append_right _ _ _ (by
        intro hnil
        have hc := congrArg List.length hnil
        rw [List.length_drop] at hc
        simp at hc
        omega)]

set_option maxRecDepth 8000 in
/-- Closed witness for C1 at a concrete run of 123 pushes with k = 3. -/
theorem C1_ring_buffer_witness :
    (metricSeries.init.pushAll (testList 123)).slice.getD 0 0 = 3 ∧
    (metricSeries.init.pushAll (testList 123)).slice.length = 120 := by
  have h := (C1_ring_buffer (testList 123)).1 3 (by norm_num [ringSize])
    (by decide)
  refine ⟨?_, ?_⟩
  · rw [h.2.2.2.1]
    decide
  · rw [h.2.1]
    rfl

/-! ## Series keys and label parsing (seriesKey, parseLabels in main.go) -/

/-- Translation of seriesKey: a map with no entries (nil or empty) yields the
bare name; otherwise the labels are serialized in sorted key order as
name, open brace, comma-separated k=v parts, close brace. The Go map is
modelled as an optional association list; sort.Strings is modelled by
insertion sort over the lexicographic order on character lists. -/
def seriesKey (name : Str) (labels : Option (List (Str × Str))) : Str :=
  let l := labels.getD []
  if l.length = 0 then name
  else
    let keys := (l.map Prod.fst).insertionSort (fun a b => a ≤ b)
    let parts := keys.map (fun k => k ++ ['='] ++ ((l.lookup k).getD []))
    name ++ ['\x7b'] ++ List.intercalate [','] parts ++ ['\x7d']

/-- Association-list lookup is invariant under permutation when keys are
distinct (the Go map model). -/
theorem lookup_perm {l1 l2 : List (Str × Str)} (hp : l1.Perm l2) :
    (l1.map Prod.fst).Nodup → ∀ k, l1.lookup k = l2.lookup k := by
  induction hp with
  | nil => intro _ k; rfl
  | cons x hp ih =>
    intro hnd k
    obtain ⟨x1, x2⟩ := x
    rw [List.map_cons, List.nodup_cons] at hnd
    cases hbe : k == x1 with
    | true => simp [List.lookup_cons, hbe]
    | false =>
      simp only [List.lookup_cons, hbe]
      exact ih hnd.2 k
  | swap x y l =>
    intro hnd k
    obtain ⟨x1, x2⟩ := x
    obtain ⟨y1, y2⟩ := y
    rw [List.map_cons, List.map_cons, List.nodup_cons] at hnd
    have hne : y1 ≠ x1 := by
      intro he
      exact hnd.1 (by rw [he]; exact List.mem_cons_self _ _)
    cases hbex : k == x1 with
    | true =>
      have hkx : k = x1 := by simpa using hbex
      have hbey : (k == y1) = false := by
        simp only [beq_eq_false_iff_ne, ne_eq]
        intro he
        exact hne (by rw [← he, hkx])
      simp [List.lookup_cons, hbex, hbey]
    | false =>
      cases hbey : k == y1 with
      | true => simp [List.lookup_cons, hbex, hbey]
      | false => simp [List.lookup_cons, hbex, hbey]
  | trans h1 h2 ih1 ih2 =>
    intro hnd k
    rw [ih1 hnd k]
    exact ih2 (((h1.map Prod.fst).nodup_iff).mp hnd) k

/-- C3: seriesKey is order-independent and deterministic: equal label sets
(same key/value pairs in any order, keys distinct) give the identical
string, of the shape name, open brace, sorted k=v parts, close brace, and
the bare name for an empty label set. -/
theorem C3_seriesKey_deterministic (name : Str) (L1 L2 : List (Str × Str))
    (hnd : (L1.map Prod.fst).Nodup) (hp : L1.Perm L2) :
    seriesKey name (some L1) = seriesKey name (some L2) ∧
    (∀ nm : Str, seriesKey nm (some []) = nm) ∧
    seriesKey "m".toList (some [("b".toList, "2".toList), ("a".toList, "1".toList)]) =
      "m\x7ba=1,b=2\x7d".toList := by
  refine ⟨?_, fun nm => rfl, by decide⟩
  unfold seriesKey
  simp only [Option.getD_some]
  have hlen := hp.length_eq
  by_cases h0 : L1.length = 0
  · rw [if_pos h0, if_pos (by omega)]
  · rw [if_neg h0, if_neg (by omega)]
    have hkeys : (L1.map Prod.fst).insertionSort (fun a b => a ≤ b) =
        (L2.map Prod.fst).insertionSort (fun a b => a ≤ b) :=
      List.eq_of_perm_of_sorted
        ((List.perm_insertionSort _ _).trans
          ((hp.map Prod.fst).trans (List.perm_insertionSort _ _).symm))
        (List.sorted_insertionSort _ _) (List.sorted_insertionSort _ _)
    rw [hkeys]
    have hlk : ∀ k, L1.lookup k = L2.lookup k := lookup_perm hp hnd
    simp only [hlk]

/-- Closed witness for C3: two insertion orders of the same label set give
the same key. -/
theorem C3_seriesKey_witness :
    seriesKey "x".toList (some [("b".toList, "2".toList), ("a".toList, "1".toList)]) =
      seriesKey "x".toList (some [("a".toList, "1".toList), ("b".toList, "2".toList)]) :=
  (C3_seriesKey_deterministic "x".toList _ _ (by decide) (by decide)).1

/-- Model of strings.TrimSpace: drop whitespace from both ends. -/
def trimSpace (s : Str) : Str :=
  ((s.dropWhile Char.isWhitespace).reverse.dropWhile Char.isWhitespace).reverse

/-- Model of strings.Trim(s, quote): drop double quotes from both ends. -/
def trimQuotes (s : Str) : Str :=
  ((s.dropWhile (fun c => c = '"')).reverse.dropWhile (fun c => c = '"')).reverse

/-- Setting a key in a Go map modelled as an association list: overwrite an
existing binding, else append. -/
def mapSet (m : List (Str × Str)) (k v : Str) : List (Str × Str) :=
  if (m.lookup k).isSome then m.map (fun p => if p.1 = k then (k, v) else p)
  else m ++ [(k, v)]

/-- Translation of parseLabels: split a series text at the first open brace
into a bare name and, when a closing brace follows, a label map parsed from
comma-separated key=value pairs (whitespace trimmed, value quotes stripped,
pairs without an equals sign skipped). No brace, or no closing brace,
yields a nil label map. -/
def parseLabels (s : Str) : Str × Option (List (Str × Str)) :=
  match s.findIdx? (fun c => c = '\x7b') with
  | none => (s, none)
  | some idx =>
    let name := s.take idx
    let rest := s.drop (idx + 1)
    match rest.findIdx? (fun c => c = '\x7d') with
    | none => (name, none)
    | some e =>
      let labelStr := rest.take e
      let labels := (labelStr.splitOn ',').foldl (fun acc pair =>
        let pair2 := trimSpace pair
        match pair2.findIdx? (fun c => c = '=') with
        | none => acc
        | some eqIdx =>
          mapSet acc (pair2.take eqIdx) (trimQuotes (pair2.drop (eqIdx + 1)))) []
      (name, some labels)

/-- C10: for any metric name (one not containing an open brace), the text
name-open-brace-close-brace parses to the name with an empty label map, the
bare text parses to the name with a nil label map, seriesKey maps both the
empty and the nil label map to the bare name, so both spellings are stored
under the same canonical series key. -/
theorem C10_empty_label_block (name : Str) (h : '\x7b' ∉ name) :
    parseLabels (name ++ ['\x7b', '\x7d']) = (name, some []) ∧
    parseLabels name = (name, none) ∧
    seriesKey name (some []) = name ∧
    seriesKey name none = name ∧
    seriesKey (parseLabels (name ++ ['\x7b', '\x7d'])).1
        (parseLabels (name ++ ['\x7b', '\x7d'])).2 =
      seriesKey (parseLabels name).1 (parseLabels name).2 := by
  have hnone : name.findIdx? (fun c => c = '\x7b') = none := by
    rw [List.findIdx?_eq_none_iff]
    intro x hx
    simp only [decide_eq_false_iff_not]
    intro heq
    exact h (heq ▸ hx)
  have hfull : (name ++ ['\x7b', '\x7d']).findIdx? (fun c => c = '\x7b') =
      some name.length := by
    rw [List.findIdx?_append, hnone]
    simp [List.findIdx?_cons]
  have htake : (name ++ ['\x7b', '\x7d']).take name.length = name :=
    List.take_left name _
  have hdrop : (name ++ ['\x7b', '\x7d']).drop (name.length + 1) = ['\x7d'] :=
    @List.drop_append _ name ['\x7b', '\x7d'] 1
  have hp1 : parseLabels (name ++ ['\x7b', '\x7d']) = (name, some []) := by
    unfold parseLabels
    rw [hfull]
    simp only [htake, hdrop]
    rfl
  have hp2 : parseLabels name = (name, none) := by
    unfold parseLabels
    rw [hnone]
  refine ⟨hp1, hp2, rfl, rfl, ?_⟩
  rw [hp1, hp2]
  rfl

/-- Closed witness for C10 at the metric name cpu_usage. -/
theorem C10_empty_label_block_witness :
    parseLabels ("cpu_usage".toList ++ ['\x7b', '\x7d']) = ("cpu_usage".toList, some []) ∧
    seriesKey (parseLabels ("cpu_usage".toList ++ ['\x7b', '\x7d'])).1
        (parseLabels ("cpu_usage".toList ++ ['\x7b', '\x7d'])).2 =
      seriesKey (parseLabels "cpu_usage".toList).1 (parseLabels "cpu_usage".toList).2 :=
  ⟨(C10_empty_label_block "cpu_usage".toList (by decide)).1,
    (C10_empty_label_block "cpu_usage".toList (by decide)).2.2.2.2⟩

/-! ## Unit classifier configuration (mergeUnits, compileUnits) -/

/-- One unit rule: identifier, display suffix, list of regex pattern texts. -/
structure UnitEntry where
  unit : Str
  suffix : Str
  matchers : List Str
deriving DecidableEq

/-- Ordered unit configuration. -/
structure UnitsConfig where
  units : List UnitEntry
deriving DecidableEq

/-- A compiled regex is abstracted as a match predicate on names; the regexp
package is an external collaborator of the core. -/
abbrev Regexp := Str → Bool

/-- Compiled rule entry: identifier, suffix and compiled pattern. -/
structure compiledUnit where
  unit : Str
  suffix : Str
  re : Regexp

/-- Compiled matcher: the compiled entries in configuration order. -/
structure UnitMatcher where
  units : List compiledUnit

/-- Translation of mergeUnits: a nil override returns the base; otherwise
override rules are appended first while their identifiers are recorded in
the seen set, then base rules whose identifier was seen are skipped. -/
def mergeUnits (base : UnitsConfig) (override : Option UnitsConfig) : UnitsConfig :=
  match override with
  | none => base
  | some ov =>
    let step1 := ov.units.foldl
      (fun (acc : List UnitEntry × List Str) u => (acc.1 ++ [u], u.unit :: acc.2)) ([], [])
    let units2 := base.units.foldl
      (fun acc u => if step1.2.contains u.unit then acc else acc ++ [u]) step1.1
    ⟨units2⟩

theorem mergeUnits_fold1 (l : List UnitEntry) (acc : List UnitEntry) (seen : List Str) :
    l.foldl (fun (acc : List UnitEntry × List Str) u => (acc.1 ++ [u], u.unit :: acc.2))
      (acc, seen) = (acc ++ l, (l.map UnitEntry.unit).reverse ++ seen) := by
  induction l generalizing acc seen with
  | nil => simp
  | cons u t ih =>
    rw [List.foldl_cons, ih]
    simp

theorem mergeUnits_fold2 (l : List UnitEntry) (seen : List Str) (acc : List UnitEntry) :
    l.foldl (fun acc u => if seen.contains u.unit then acc else acc ++ [u]) acc =
      acc ++ l.filter (fun u => !(seen.contains u.unit)) := by
  induction l generalizing acc with
  | nil => simp
  | cons u t ih =>
    rw [List.foldl_cons, List.filter_cons]
    cases hc : seen.contains u.unit with
    | true =>
      rw [if_pos rfl, ih]
      simp [hc]
    | false =>
      rw [if_neg (by simp [hc])]
      rw [ih]
      simp [hc]

theorem contains_reverse (l : List Str) (x : Str) :
    l.reverse.contains x = l.contains x := by
  simp [List.elem_iff]

/-- C7: merging a nil override is the identity; otherwise the merged rule
list is the override rules first (their order kept) followed by the base
rules whose identifier does not occur in the override (their order kept),
so an override rule fully replaces the same-identifier base rule, base-only
rules survive, and override-only rules are present. -/
theorem C7_mergeUnits (base ov : UnitsConfig) :
    mergeUnits base none = base ∧
    (mergeUnits base (some ov)).units =
      ov.units ++ base.units.filter
        (fun u => !((ov.units.map UnitEntry.unit).contains u.unit)) ∧
    (∀ e ∈ (mergeUnits base (some ov)).units,
        e.unit ∈ ov.units.map UnitEntry.unit → e ∈ ov.units) ∧
    (∀ e ∈ base.units, e.unit ∉ ov.units.map UnitEntry.unit →
        e ∈ (mergeUnits base (some ov)).units) ∧
    (∀ e ∈ ov.units, e ∈ (mergeUnits base (some ov)).units) := by
  have hmerge : (mergeUnits base (some ov)).units =
      ov.units ++ base.units.filter
        (fun u => !((ov.units.map UnitEntry.unit).contains u.unit)) := by
    show (base.units.foldl _ _) = _
    rw [mergeUnits_fold1, List.append_nil]
    rw [mergeUnits_fold2]
    simp only [List.nil_append]
    congr 1
    apply List.filter_congr
    intro u _
    rw [contains_reverse]
  refine ⟨rfl, hmerge, ?_, ?_, ?_⟩
  · intro e he hid
    rw [hmerge] at he
    rcases List.mem_append.mp he with h1 | h1
    · exact h1
    · exfalso
      have hf := List.of_mem_filter h1
      rw [Bool.not_eq_true', ← Bool.not_eq_true] at hf
      exact hf (by rw [List.elem_iff]; exact hid)
  · intro e he hid
    rw [hmerge]
    refine List.mem_append.mpr (Or.inr (List.mem_filter.mpr ⟨he, ?_⟩))
    rw [Bool.not_eq_eq_eq_not]
    simp only [Bool.not_true]
    rw [← Bool.not_eq_true]
    intro hc
    exact hid (List.elem_iff.mp hc)
  · intro e he
    rw [hmerge]
    exact List.mem_append.mpr (Or.inl he)

/-- Closed witness for C7 on the example from the specification: the bytes
rule is overridden, duration is base-only, custom is override-only. -/
theorem C7_mergeUnits_witness :
    (mergeUnits
        ⟨[⟨"bytes".toList, "B".toList, ["_bytes".toList]⟩,
          ⟨"duration".toList, "s".toList, ["_seconds".toList]⟩]⟩
        (some ⟨[⟨"bytes".toList, "B".toList, ["_bytes".toList, "_octets".toList]⟩,
          ⟨"custom".toList, "c".toList, ["_custom".toList]⟩]⟩)).units =
      [⟨"bytes".toList, "B".toList, ["_bytes".toList, "_octets".toList]⟩,
        ⟨"custom".toList, "c".toList, ["_custom".toList]⟩,
        ⟨"duration".toList, "s".toList, ["_seconds".toList]⟩] := by
  rw [(C7_mergeUnits
    ⟨[⟨"bytes".toList, "B".toList, ["_bytes".toList]⟩,
      ⟨"duration".toList, "s".toList, ["_seconds".toList]⟩]⟩
    ⟨[⟨"bytes".toList, "B".toList, ["_bytes".toList, "_octets".toList]⟩,
      ⟨"custom".toList, "c".toList, ["_custom".toList]⟩]⟩).2.1]
  decide

/-- Translation of the inner loop of compileUnits: compile every pattern of
one entry, failing the whole step on the first bad pattern. -/
def compileMatchers (compile : Str → Option Regexp) (u sfx : Str) :
    List Str → Option (List compiledUnit)
  | [] => some []
  | expr :: rest =>
    match compile expr with
    | none => none
    | some re =>
      match compileMatchers compile u sfx rest with
      | none => none
      | some tail2 => some (⟨u, sfx, re⟩ :: tail2)

/-- Translation of the outer loop of compileUnits over the config entries. -/
def compileUnitsGo (compile : Str → Option Regexp) :
    List UnitEntry → Option (List compiledUnit)
  | [] => some []
  | e :: rest =>
    match compileMatchers compile e.unit e.suffix e.matchers with
    | none => none
    | some cs =>
      match compileUnitsGo compile rest with
      | none => none
      | some tail2 => some (cs ++ tail2)

/-- Translation of compileUnits: compile every pattern of every rule in
configuration order; any failure fails the whole step. -/
def compileUnits (compile : Str → Option Regexp) (cfg : UnitsConfig) :
    Option UnitMatcher :=
  (compileUnitsGo compile cfg.units).map UnitMatcher.mk

theorem compileMatchers_fail (compile : Str → Option Regexp) (u sfx : Str)
    (ms : List Str) (h : ∃ p ∈ ms, compile p = none) :
    compileMatchers compile u sfx ms = none := by
  induction ms with
  | nil => simp at h
  | cons p rest ih =>
    obtain ⟨q, hq, hqn⟩ := h
    rcases List.mem_cons.mp hq with hq1 | hq1
    · unfold compileMatchers
      rw [hq1] at hqn
      rw [hqn]
    · unfold compileMatchers
      cases hc : compile p with
      | none => rfl
      | some re => rw [ih ⟨q, hq1, hqn⟩]

theorem compileMatchers_ok (compile : Str → Option Regexp) (u sfx : Str)
    (ms : List Str) (h : ∀ p ∈ ms, (compile p).isSome) :
    compileMatchers compile u sfx ms =
      some (ms.filterMap (fun p => (compile p).map (fun re => ⟨u, sfx, re⟩))) := by
  induction ms with
  | nil => rfl
  | cons p rest ih =>
    have hp := h p (List.mem_cons_self _ _)
    cases hc : compile p with
    | none => rw [hc] at hp; simp at hp
    | some re =>
      unfold compileMatchers
      rw [hc, ih (fun q hq => h q (List.mem_cons_of_mem _ hq))]
      simp [hc]

theorem compileUnitsGo_fail (compile : Str → Option Regexp) (l : List UnitEntry)
    (h : ∃ e ∈ l, ∃ p ∈ e.matchers, compile p = none) :
    compileUnitsGo compile l = none := by
  induction l with
  | nil => simp at h
  | cons e rest ih =>
    obtain ⟨f, hf, hfp⟩ := h
    rcases List.mem_cons.mp hf with hf1 | hf1
    · unfold compileUnitsGo
      rw [hf1] at hfp
      rw [compileMatchers_fail _ _ _ _ hfp]
    · unfold compileUnitsGo
      cases hc : compileMatchers compile e.unit e.suffix e.matchers with
      | none => rfl
      | some cs => rw [ih ⟨f, hf1, hfp⟩]

theorem compileUnitsGo_ok (compile : Str → Option Regexp) (l : List UnitEntry)
    (h : ∀ e ∈ l, ∀ p ∈ e.matchers, (compile p).isSome) :
    compileUnitsGo compile l =
      some (l.flatMap (fun e => e.matchers.filterMap
        (fun p => (compile p).map (fun re => ⟨e.unit, e.suffix, re⟩)))) := by
  induction l with
  | nil => rfl
  | cons e rest ih =>
    unfold compileUnitsGo
    rw [compileMatchers_ok _ _ _ _ (h e (List.mem_cons_self _ _)),
      ih (fun f hf => h f (List.mem_cons_of_mem _ hf))]
    simp

/-- C9: if any pattern of any rule fails to compile, compileUnits fails and
yields no matcher at all; if every pattern compiles, the matcher holds one
compiled entry per pattern, carrying that rule's identifier and suffix, in
configuration order (rule order, pattern order inside a rule). -/
theorem C9_compileUnits (compile : Str → Option Regexp) (cfg : UnitsConfig) :
    ((∃ e ∈ cfg.units, ∃ p ∈ e.matchers, compile p = none) →
      compileUnits compile cfg = none) ∧
    ((∀ e ∈ cfg.units, ∀ p ∈ e.matchers, (compile p).isSome) →
      compileUnits compile cfg =
        some ⟨cfg.units.flatMap (fun e => e.matchers.filterMap
          (fun p => (compile p).map (fun re => ⟨e.unit, e.suffix, re⟩)))⟩) := by
  constructor
  · intro h
    unfold compileUnits
    rw [compileUnitsGo_fail _ _ h]
    rfl
  · intro h
    unfold compileUnits
    rw [compileUnitsGo_ok _ _ h]
    rfl

/-- Closed witness for C9: a failing pattern kills the whole compile, and a
two-pattern rule compiles to two entries with the rule's unit and suffix. -/
theorem C9_compileUnits_witness :
    compileUnits (fun _ => none)
      ⟨[⟨"bytes".toList, "B".toList, ["_bytes".toList]⟩]⟩ = none ∧
    ((compileUnits (fun _ => some (fun _ => true))
      ⟨[⟨"bytes".toList, "B".toList, ["_bytes".toList, "_octets".toList]⟩]⟩).map
        (fun um => um.units.map (fun c => (c.unit, c.suffix)))) =
      some [("bytes".toList, "B".toList), ("bytes".toList, "B".toList)] := by
  constructor
  · exact (C9_compileUnits (fun _ => none)
      ⟨[⟨"bytes".toList, "B".toList, ["_bytes".toList]⟩]⟩).1
      ⟨_, List.mem_cons_self _ _, "_bytes".toList, List.mem_cons_self _ _, rfl⟩
  · rw [(C9_compileUnits (fun _ => some (fun _ => true))
      ⟨[⟨"bytes".toList, "B".toList, ["_bytes".toList, "_octets".toList]⟩]⟩).2
      (by intro e he p hp; rfl)]
    rfl

/-! ## Navigation state machine (uiState in main.go) -/

/-- The two focusable panels. -/
inductive focusPanel
  | sidebar
  | seriesTable
deriving DecidableEq

/-- Constant defaultPageSize from the source. -/
def defaultPageSize : ℤ := 30

/-- Translation of the uiState struct; Go ints are modelled as integers. -/
structure uiState where
  allKeys : List Str
  filtered : List Str
  selectedIdx : ℤ
  scrollOffset : ℤ
  pageSize : ℤ
  filterText : Str
  filterMode : Bool
  regexValid : Bool
  focus : focusPanel
  seriesIdx : ℤ
  seriesScroll : ℤ
  seriesPageSize : ℤ
deriving DecidableEq

namespace uiState

/-- Translation of adjustScroll: scroll up to meet the selection, scroll
down just enough to keep it on the page, never below zero. -/
def adjustScroll (u : uiState) : uiState :=
  let ps := if u.pageSize ≤ 0 then defaultPageSize else u.pageSize
  let so1 := if u.selectedIdx < u.scrollOffset then u.selectedIdx else u.scrollOffset
  let so2 := if u.selectedIdx ≥ so1 + ps then u.selectedIdx - ps + 1 else so1
  let so3 := if so2 < 0 then 0 else so2
  { u with scrollOffset := so3 }

/-- Translation of adjustSeriesScroll (page size defaulting to 10). -/
def adjustSeriesScroll (u : uiState) : uiState :=
  let ps := if u.seriesPageSize ≤ 0 then (10 : ℤ) else u.seriesPageSize
  let so1 := if u.seriesIdx < u.seriesScroll then u.seriesIdx else u.seriesScroll
  let so2 := if u.seriesIdx ≥ so1 + ps then u.seriesIdx - ps + 1 else so1
  let so3 := if so2 < 0 then 0 else so2
  { u with seriesScroll := so3 }

/-- Translation of moveUp. -/
def moveUp (u : uiState) : uiState :=
  match u.focus with
  | .sidebar =>
    if 0 < u.selectedIdx then
      let u2 := adjustScroll { u with selectedIdx := u.selectedIdx - 1 }
      { u2 with seriesIdx := 0, seriesScroll := 0 }
    else u
  | .seriesTable =>
    if 0 < u.seriesIdx then
      adjustSeriesScroll { u with seriesIdx := u.seriesIdx - 1 }
    else u

/-- Translation of moveDown: note the series-table branch increments the
series selection without any clamping. -/
def moveDown (u : uiState) : uiState :=
  match u.focus with
  | .sidebar =>
    if u.selectedIdx < (u.filtered.length : ℤ) - 1 then
      let u2 := adjustScroll { u with selectedIdx := u.selectedIdx + 1 }
      { u2 with seriesIdx := 0, seriesScroll := 0 }
    else u
  | .seriesTable =>
    adjustSeriesScroll { u with seriesIdx := u.seriesIdx + 1 }

/-- Translation of clampSeriesIdx, invoked by the refresh loop with the
currently known series count for the selected name. -/
def clampSeriesIdx (u : uiState) (mx : ℤ) : uiState :=
  let si1 := if u.seriesIdx ≥ mx then mx - 1 else u.seriesIdx
  let si2 := if si1 < 0 then 0 else si1
  { u with seriesIdx := si2 }

/-- Model of strings.ToLower. -/
def toLower (s : Str) : Str := s.map Char.toLower

/-- Model of strings.Contains: substring containment. -/
def strContains (s sub : Str) : Bool := decide (sub <:+: s)

/-- Translation of applyFilter, parameterized by the external regexp
compiler (the source prepends a case-insensitivity flag to the pattern):
empty text keeps all keys; a compiling pattern filters by regex match and
marks the filter valid; a failing pattern falls back to case-insensitive
substring containment and marks it invalid. Afterwards the selection index
is clamped, scroll and series selection reset, and the scroll recomputed. -/
def applyFilter (compile : Str → Option Regexp) (u : uiState) : uiState :=
  let u1 :=
    if u.filterText = [] then
      { u with filtered := u.allKeys, regexValid := true }
    else
      match compile ("(?i)".toList ++ u.filterText) with
      | none =>
        { u with
          regexValid := false
          filtered := u.allKeys.filter (fun k =>
            strContains (toLower k) (toLower u.filterText)) }
      | some re =>
        { u with regexValid := true, filtered := u.allKeys.filter re }
  let sel1 := if u1.selectedIdx ≥ (u1.filtered.length : ℤ) then (u1.filtered.length : ℤ) - 1
    else u1.selectedIdx
  let sel2 := if sel1 < 0 then 0 else sel1
  adjustScroll { u1 with
    selectedIdx := sel2
    scrollOffset := 0
    seriesIdx := 0
    seriesScroll := 0 }

end uiState

/-- C8: applyFilter keeps the whole name list for empty filter text; for a
pattern the external compiler accepts it keeps exactly the matching names
and sets the valid flag; for a pattern it rejects it falls back to
case-insensitive substring containment and clears the valid flag, raising
no error; afterwards the name selection is clamped into the filtered range
(0 when empty) and the series-table selection and scroll are reset to 0. -/
theorem C8_applyFilter (compile : Str → Option Regexp) (u : uiState) :
    ((u.filterText = [] → (u.applyFilter compile).filtered = u.allKeys ∧
        (u.applyFilter compile).regexValid = true) ∧
      (∀ re, u.filterText ≠ [] →
        compile ("(?i)".toList ++ u.filterText) = some re →
        (u.applyFilter compile).filtered = u.allKeys.filter re ∧
        (u.applyFilter compile).regexValid = true) ∧
      (u.filterText ≠ [] → compile ("(?i)".toList ++ u.filterText) = none →
        (u.applyFilter compile).filtered = u.allKeys.filter (fun k =>
          uiState.strContains (uiState.toLower k) (uiState.toLower u.filterText)) ∧
        (u.applyFilter compile).regexValid = false)) ∧
    (u.applyFilter compile).selectedIdx =
      max 0 (min u.selectedIdx (((u.applyFilter compile).filtered.length : ℤ) - 1)) ∧
    0 ≤ (u.applyFilter compile).selectedIdx ∧
    (u.applyFilter compile).selectedIdx ≤
      max (((u.applyFilter compile).filtered.length : ℤ) - 1) 0 ∧
    (u.applyFilter compile).seriesIdx = 0 ∧
    (u.applyFilter compile).seriesScroll = 0 := by
  by_cases ht : u.filterText = []
  · refine ⟨⟨fun _ => ⟨?_, ?_⟩, fun re hne _ => absurd ht hne,
      fun hne _ => absurd ht hne⟩, ?_, ?_, ?_, ?_, ?_⟩
    all_goals simp [uiState.applyFilter, uiState.adjustScroll, ht]
    all_goals try split_ifs <;> omega
  · cases hc : compile ("(?i)".toList ++ u.filterText) with
    | none =>
      have hc2 : compile ('(' :: '?' :: 'i' :: ')' :: u.filterText) = none := by
        simpa using hc
      refine ⟨⟨fun he => absurd he ht, fun re _ hsome => Option.noConfusion hsome,
        fun _ _ => ⟨?_, ?_⟩⟩, ?_, ?_, ?_, ?_, ?_⟩
      all_goals simp [uiState.applyFilter, uiState.adjustScroll, ht, hc2]
      all_goals try split_ifs <;> omega
    | some re =>
      have hc2 : compile ('(' :: '?' :: 'i' :: ')' :: u.filterText) = some re := by
        simpa using hc
      refine ⟨⟨fun he => absurd he ht, fun re2 _ hsome => ?_,
        fun _ hnone => Option.noConfusion hnone⟩, ?_, ?_, ?_, ?_, ?_⟩
      · cases hsome
        constructor
        all_goals simp [uiState.applyFilter, uiState.adjustScroll, ht, hc2]
      all_goals simp [uiState.applyFilter, uiState.adjustScroll, ht, hc2]
      all_goals try split_ifs <;> omega

/-- Concrete navigation state used by the C6 counterexample: focus on the
series table with the first of a single known series selected. -/
def uiProbe : uiState :=
  { allKeys := ["a".toList]
    filtered := ["a".toList]
    selectedIdx := 0
    scrollOffset := 0
    pageSize := 0
    filterText := []
    filterMode := false
    regexValid := true
    focus := .seriesTable
    seriesIdx := 0
    seriesScroll := 0
    seriesPageSize := 0 }

/-- Counterexample to C6 as stated: with one known series (count 1) and the
series table focused, moveDown pushes the series selection index to 1,
which exceeds count minus 1 = 0 — moveDown itself performs no clamping. -/
theorem C6_moveDown_unclamped :
    (uiProbe.moveDown).seriesIdx = 1 ∧
    ¬((uiProbe.moveDown).seriesIdx ≤ (1 : ℤ) - 1) := by decide

/-- C6 (amended): on the name list, moveDown and moveUp move the selection
by one clamped into the filtered list and reset the series-table selection
whenever the selection moves; on the series table, moveDown increments the
series selection unconditionally and moveUp decrements it clamped at 0;
the clamp to the known series count happens in the separate clampSeriesIdx
step (run by the refresh loop), which forces the index into [0, count-1],
so moveDown followed by that clamp never exceeds count minus 1. -/
theorem C6_navigation (u : uiState) (c : ℤ) :
    (u.focus = .sidebar →
      ((u.moveDown).selectedIdx =
          if u.selectedIdx < (u.filtered.length : ℤ) - 1 then u.selectedIdx + 1
          else u.selectedIdx) ∧
      ((u.moveUp).selectedIdx =
          if 0 < u.selectedIdx then u.selectedIdx - 1 else u.selectedIdx) ∧
      (0 ≤ u.selectedIdx → u.selectedIdx ≤ (u.filtered.length : ℤ) - 1 →
        (u.moveDown).selectedIdx = min (u.selectedIdx + 1) ((u.filtered.length : ℤ) - 1) ∧
        (u.moveUp).selectedIdx = max (u.selectedIdx - 1) 0) ∧
      (u.selectedIdx < (u.filtered.length : ℤ) - 1 →
        (u.moveDown).seriesIdx = 0 ∧ (u.moveDown).seriesScroll = 0) ∧
      (0 < u.selectedIdx → (u.moveUp).seriesIdx = 0 ∧ (u.moveUp).seriesScroll = 0)) ∧
    (u.focus = .seriesTable →
      (u.moveDown).seriesIdx = u.seriesIdx + 1 ∧
      ((u.moveUp).seriesIdx =
          if 0 < u.seriesIdx then u.seriesIdx - 1 else u.seriesIdx) ∧
      (0 ≤ u.seriesIdx → (u.moveUp).seriesIdx = max (u.seriesIdx - 1) 0) ∧
      (u.moveDown).selectedIdx = u.selectedIdx ∧
      (u.moveUp).selectedIdx = u.selectedIdx) ∧
    (1 ≤ c → (u.clampSeriesIdx c).seriesIdx = max 0 (min u.seriesIdx (c - 1))) ∧
    ((u.clampSeriesIdx c).seriesIdx ≤ max (c - 1) 0 ∧
      0 ≤ (u.clampSeriesIdx c).seriesIdx) ∧
    ((u.moveDown).clampSeriesIdx c).seriesIdx ≤ max (c - 1) 0 := by
  have hclampIdx : ∀ (v : uiState), (v.clampSeriesIdx c).seriesIdx =
      if (if v.seriesIdx ≥ c then c - 1 else v.seriesIdx) < 0 then 0
      else if v.seriesIdx ≥ c then c - 1 else v.seriesIdx := by
    intro v
    simp only [uiState.clampSeriesIdx]
  have hclamp : ∀ (v : uiState), (v.clampSeriesIdx c).seriesIdx ≤ max (c - 1) 0 ∧
      0 ≤ (v.clampSeriesIdx c).seriesIdx := by
    intro v
    rw [hclampIdx]
    constructor
    all_goals split_ifs <;> omega
  refine ⟨?_, ?_, ?_, hclamp u, (hclamp u.moveDown).1⟩
  · intro hf
    have hdown : (u.moveDown).selectedIdx =
        if u.selectedIdx < (u.filtered.length : ℤ) - 1 then u.selectedIdx + 1
        else u.selectedIdx := by
      simp only [uiState.moveDown, hf]
      split_ifs <;> rfl
    have hup : (u.moveUp).selectedIdx =
        if 0 < u.selectedIdx then u.selectedIdx - 1 else u.selectedIdx := by
      simp only [uiState.moveUp, hf]
      split_ifs <;> rfl
    refine ⟨hdown, hup, fun h0 h1 => ⟨?_, ?_⟩, fun hlt => ⟨?_, ?_⟩, fun hpos => ⟨?_, ?_⟩⟩
    · rw [hdown]; split_ifs <;> omega
    · rw [hup]; split_ifs <;> omega
    · simp only [uiState.moveDown, hf, if_pos hlt]
    · simp only [uiState.moveDown, hf, if_pos hlt]
    · simp only [uiState.moveUp, hf, if_pos hpos]
    · simp only [uiState.moveUp, hf, if_pos hpos]
  · intro hf
    have hup2 : (u.moveUp).seriesIdx =
        if 0 < u.seriesIdx then u.seriesIdx - 1 else u.seriesIdx := by
      simp only [uiState.moveUp, hf]
      split_ifs <;> rfl
    refine ⟨?_, hup2, fun h0 => ?_, ?_, ?_⟩
    · simp only [uiState.moveDown, hf]
      rfl
    · rw [hup2]; split_ifs <;> omega
    · simp only [uiState.moveDown, hf]
      rfl
    · simp only [uiState.moveUp, hf]
      split_ifs <;> rfl
  · intro h1
    rw [hclampIdx]
    split_ifs <;> omega

/-- Concrete navigation state used by the C8 witness: three known names,
filter text cpu, last name selected. -/
def uiProbe2 : uiState :=
  { uiProbe with
    allKeys := ["cpu_a".toList, "CPU_b".toList, "mem".toList]
    filterText := "cpu".toList
    selectedIdx := 2 }

/-- Closed witness for C8: a rejected pattern falls back to
case-insensitive substring matching, clears the valid flag, and clamps the
selection from 2 into the two-entry filtered list. -/
theorem C8_applyFilter_witness :
    (uiProbe2.applyFilter (fun _ => none)).filtered =
      ["cpu_a".toList, "CPU_b".toList] ∧
    (uiProbe2.applyFilter (fun _ => none)).regexValid = false ∧
    (uiProbe2.applyFilter (fun _ => none)).selectedIdx = 1 := by
  have h := (C8_applyFilter (fun _ => none) uiProbe2).1.2.2 (by decide) rfl
  have hsel := (C8_applyFilter (fun _ => none) uiProbe2).2.1
  refine ⟨?_, h.2, ?_⟩
  · rw [h.1]
    decide
  · rw [hsel, h.1]
    decide

/-- Closed witness for the amended C6: moving down on a three-name list
from position 1 selects position 2, and clamping a series index with one
known series forces it to 0. -/
theorem C6_navigation_witness :
    (({ uiProbe with
        focus := .sidebar
        filtered := ["a".toList, "b".toList, "c".toList]
        selectedIdx := 1 } : uiState).moveDown).selectedIdx = 2 ∧
    ((uiProbe.moveDown).clampSeriesIdx 1).seriesIdx = 0 := by
  constructor
  · have h := (C6_navigation
      { uiProbe with
        focus := .sidebar
        filtered := ["a".toList, "b".toList, "c".toList]
        selectedIdx := 1 } 1).1 rfl
    rw [h.2.2.1 (by decide) (by decide) |>.1]
    decide
  · have h := (C6_navigation uiProbe 1).2.2.2.2
    have h2 := (C6_navigation uiProbe 1).2.2.1 (by decide)
    decide

/-! ## Rate engine (metricSeries.rate, metricSeries.rateSlice) -/

namespace metricSeries

/-- Chronological start position of the buffer, as computed inside
rateSlice: the write index once full, else 0. -/
def startIdx (s : metricSeries) : ℕ := if s.full then s.idx else 0

/-- Ring position of the newest sample (just behind the write index). -/
def newestIdx (s : metricSeries) : ℕ :=
  if s.idx = 0 then ringSize - 1 else s.idx - 1

/-- Translation of the backward scan loop inside rate: at offset j from the
newest sample with steps samples left, carry the oldest in-window sample
seen so far and stop at the first sample strictly before the cutoff. The
source index newestIdx - j wrapped into range is written
(newestIdx + ringSize - j) % ringSize, identical for every offset
1 ≤ j ≤ ringSize that the loop reaches. -/
def rateFind (s : metricSeries) (cutoff : ℚ) : ℕ → ℕ → ℚ × ℚ → ℚ × ℚ
  | _, 0, acc => acc
  | j, steps + 1, acc =>
    let i := (s.newestIdx + ringSize - j) % ringSize
    if s.times.getD i 0 < cutoff then acc
    else rateFind s cutoff (j + 1) steps (s.values.getD i 0, s.times.getD i 0)

/-- Translation of metricSeries.rate: zero with fewer than two samples,
else scan back from the newest sample within the window and divide the
clamped value delta by the elapsed time, zero when the elapsed time is not
positive. -/
def rate (s : metricSeries) (window : ℚ) : ℚ :=
  let n := s.count
  if n < 2 then 0
  else
    let newest := s.values.getD s.newestIdx 0
    let newestT := s.times.getD s.newestIdx 0
    let cutoff := newestT - window
    let old := rateFind s cutoff 1 (n - 1) (newest, newestT)
    let elapsed := newestT - old.2
    if elapsed ≤ 0 then 0
    else
      let delta := newest - old.1
      if delta < 0 then 0 else delta / elapsed

/-- Translation of the loop inside rateSlice: j counts up from 1, steps
pairs remain, prev carries the previous sample. -/
def rateSliceGo (s : metricSeries) (start : ℕ) : ℕ → ℕ → ℚ × ℚ → List ℚ
  | _, 0, _ => []
  | j, steps + 1, prev =>
    let i := (start + j) % ringSize
    let dt := s.times.getD i 0 - prev.2
    let r :=
      if 0 < dt then
        let delta := s.values.getD i 0 - prev.1
        (if delta < 0 then 0 else delta) / dt
      else 0
    r :: rateSliceGo s start (j + 1) steps (s.values.getD i 0, s.times.getD i 0)

/-- Translation of metricSeries.rateSlice; the window argument is accepted
and never read, exactly as in the source. -/
def rateSlice (s : metricSeries) (window : ℚ) : List ℚ :=
  let n := s.count
  if n < 2 then []
  else
    let start := if s.full then s.idx else 0
    rateSliceGo s start 1 (n - 1)
      (s.values.getD (start % ringSize) 0, s.times.getD (start % ringSize) 0)

/-- List counterpart of the backward scan of rate, walking the reversed
older chronological samples. -/
def scanBack (cutoff : ℚ) : List (ℚ × ℚ) → ℚ × ℚ → ℚ × ℚ
  | [], acc => acc
  | p :: rest, acc => if p.2 < cutoff then acc else scanBack cutoff rest p

/-- List counterpart of the rateSlice loop: one clamped rate per
consecutive chronological pair. -/
def ratePairs : ℚ × ℚ → List (ℚ × ℚ) → List ℚ
  | _, [] => []
  | prev, p :: rest =>
    (if 0 < p.2 - prev.2 then
      (if p.1 - prev.1 < 0 then 0 else p.1 - prev.1) / (p.2 - prev.2)
    else 0) :: ratePairs p rest

/-- The rate is never negative, whatever the buffer contents. -/
theorem rate_nonneg (s : metricSeries) (w : ℚ) : 0 ≤ s.rate w := by
  simp only [rate]
  split_ifs with h1 h2 h3
  · exact le_refl 0
  · exact le_refl 0
  · exact le_refl 0
  · push_neg at h2 h3
    exact div_nonneg (by linarith) (by linarith)

/-- Reading the chronological view at position p is reading the backing
arrays at ring position (startIdx + p) % ringSize. -/
theorem chron_getD {s : metricSeries} (h : s.wf) {p : ℕ} (hp : p < s.count) :
    s.chron.getD p (0, 0) =
      (s.values.getD ((s.startIdx + p) % ringSize) 0,
       s.times.getD ((s.startIdx + p) % ringSize) 0) := by
  obtain ⟨h1, h2, h3⟩ := h
  have hr : ringSize = 120 := rfl
  have hzl : (s.values.zip s.times).length = ringSize := by simp [h1, h2]
  have hcle : s.count ≤ ringSize := count_le ⟨h1, h2, h3⟩
  cases hf : s.full with
  | false =>
    have hcnt : s.count = s.idx := by simp [count, hf]
    have hst : s.startIdx = 0 := by simp [startIdx, hf]
    have hchr : s.chron = (s.values.zip s.times).take s.idx := by
      unfold chron
      rw [hf]
      simp
    have hi : (s.startIdx + p) % ringSize = p := by
      rw [hst]
      simp only [hr] at *
      omega
    rw [hi, List.getD_eq_getElem?_getD, hchr, List.getElem?_take_of_lt (by omega),
      List.getElem?_eq_getElem (by omega), List.getElem_zip, Option.getD_some,
      List.getD_eq_getElem _ _ (by omega), List.getD_eq_getElem _ _ (by omega)]
  | true =>
    have hst : s.startIdx = s.idx := by simp [startIdx, hf]
    have hchr : s.chron =
        (s.values.zip s.times).drop s.idx ++ (s.values.zip s.times).take s.idx := by
      unfold chron
      rw [hf]
      simp
    have hlen1 : ((s.values.zip s.times).drop s.idx).length = ringSize - s.idx := by
      simp [hzl]
    rw [hst]
    rcases Nat.lt_or_ge p (ringSize - s.idx) with hp2 | hp2
    · have hi : (s.idx + p) % ringSize = s.idx + p := by
        simp only [hr] at *
        omega
      rw [hi, List.getD_eq_getElem?_getD, hchr, List.getElem?_append_left (by omega),
        List.getElem?_drop, List.getElem?_eq_getElem (by omega), List.getElem_zip,
        Option.getD_some,
        List.getD_eq_getElem _ _ (by omega), List.getD_eq_getElem _ _ (by omega)]
    · have hi : (s.idx + p) % ringSize = p - (ringSize - s.idx) := by
        simp only [hr] at *
        omega
      rw [hi, List.getD_eq_getElem?_getD, hchr, List.getElem?_append_right (by omega),
        hlen1, List.getElem?_take_of_lt (by simp only [hr] at *; omega),
        List.getElem?_eq_getElem (by simp only [hr] at *; omega), List.getElem_zip,
        Option.getD_some,
        List.getD_eq_getElem _ _ (by simp only [hr] at *; omega),
        List.getD_eq_getElem _ _ (by simp only [hr] at *; omega)]

/-- The newest chronological sample sits at ring position newestIdx. -/
theorem newest_chron {s : metricSeries} (h : s.wf) (hn : 1 ≤ s.count) :
    s.chron.getD (s.count - 1) (0, 0) =
      (s.values.getD s.newestIdx 0, s.times.getD s.newestIdx 0) := by
  rw [chron_getD h (by omega)]
  obtain ⟨h1, h2, h3⟩ := h
  have hr : ringSize = 120 := rfl
  have hidx : (s.startIdx + (s.count - 1)) % ringSize = s.newestIdx := by
    cases hf : s.full with
    | false =>
      have hc : s.count = s.idx := by simp [count, hf]
      have hs : s.startIdx = 0 := by simp [startIdx, hf]
      have hni : s.newestIdx = s.idx - 1 := by
        unfold newestIdx
        rw [if_neg (by omega)]
      rw [hc, hs, hni]
      simp only [hr] at *
      omega
    | true =>
      have hc : s.count = ringSize := by simp [count, hf]
      have hs : s.startIdx = s.idx := by simp [startIdx, hf]
      rcases Nat.eq_zero_or_pos s.idx with hz | hpos
      · have hni : s.newestIdx = ringSize - 1 := by
          unfold newestIdx
          rw [if_pos hz]
        rw [hc, hs, hni, hz]
        simp only [hr]
        try omega
      · have hni : s.newestIdx = s.idx - 1 := by
          unfold newestIdx
          rw [if_neg (by omega)]
        rw [hc, hs, hni]
        simp only [hr] at *
        omega
  rw [hidx]

/-- Ring index visited by the backward scan at offset j is the ring
position of chronological sample number count - 1 - j. -/
theorem scan_index {s : metricSeries} (h : s.wf) (hn : 2 ≤ s.count) {j : ℕ}
    (hj1 : 1 ≤ j) (hj2 : j ≤ s.count - 1) :
    (s.newestIdx + ringSize - j) % ringSize =
      (s.startIdx + (s.count - 1 - j)) % ringSize := by
  obtain ⟨h1, h2, h3⟩ := h
  have hr : ringSize = 120 := rfl
  cases hf : s.full with
  | false =>
    have hc : s.count = s.idx := by simp [count, hf]
    have hs : s.startIdx = 0 := by simp [startIdx, hf]
    have hni : s.newestIdx = s.idx - 1 := by
      unfold newestIdx
      rw [if_neg (by omega)]
    rw [hc] at hn hj2 ⊢
    rw [hs, hni]
    simp only [hr] at *
    omega
  | true =>
    have hc : s.count = ringSize := by simp [count, hf]
    have hs : s.startIdx = s.idx := by simp [startIdx, hf]
    rcases Nat.eq_zero_or_pos s.idx with hz | hpos
    · have hni : s.newestIdx = ringSize - 1 := by
        unfold newestIdx
        rw [if_pos hz]
      rw [hc] at hj2 ⊢
      rw [hs, hni, hz]
      simp only [hr] at *
      omega
    · have hni : s.newestIdx = s.idx - 1 := by
        unfold newestIdx
        rw [if_neg (by omega)]
      rw [hc] at hj2 ⊢
      rw [hs, hni]
      simp only [hr] at *
      omega

/-- The backward scan keeps walking while samples are inside the window;
its result is the last element of the maximal in-window prefix. -/
theorem scanBack_eq_takeWhile (cutoff : ℚ) : ∀ (l : List (ℚ × ℚ)) (acc : ℚ × ℚ),
    scanBack cutoff l acc =
      (l.takeWhile (fun p => !(decide (p.2 < cutoff)))).getLastD acc := by
  intro l
  induction l with
  | nil => intro acc; rfl
  | cons p rest ih =>
    intro acc
    have hsb : scanBack cutoff (p :: rest) acc =
        if p.2 < cutoff then acc else scanBack cutoff rest p := rfl
    rw [hsb, List.takeWhile_cons]
    by_cases hp : p.2 < cutoff
    · rw [if_pos hp, if_neg (by simp [hp])]
      rfl
    · rw [if_neg hp, if_pos (by simp [hp]), List.getLastD_cons, ih p]

theorem takeWhile_nil_of_false {α : Type} (p : α → Bool) (l : List α)
    (h : ∀ a ∈ l, p a = false) : l.takeWhile p = [] := by
  cases l with
  | nil => rfl
  | cons x xs =>
    rw [List.takeWhile_cons, h x (List.mem_cons_self _ _)]
    simp

theorem takeWhile_append_of_true {α : Type} (p : α → Bool) (l1 l2 : List α)
    (h : ∀ a ∈ l1, p a = true) : (l1 ++ l2).takeWhile p = l1 ++ l2.takeWhile p := by
  induction l1 with
  | nil => simp
  | cons x xs ih =>
    rw [List.cons_append, List.takeWhile_cons, h x (List.mem_cons_self _ _)]
    simp only [if_true]
    rw [ih (fun a ha => h a (List.mem_cons_of_mem _ ha)), List.cons_append]

theorem find?_append_none {α : Type} (p : α → Bool) (l1 l2 : List α)
    (h : ∀ a ∈ l1, p a = false) : (l1 ++ l2).find? p = l2.find? p := by
  rw [List.find?_append]
  have h2 : l1.find? p = none := List.find?_eq_none.mpr (by
    intro x hx
    simp [h x hx])
  rw [h2, Option.none_or]

theorem dropWhile_head_false {α : Type} (p : α → Bool) (l : List α) (b : α) (bs : List α)
    (h : l.dropWhile p = b :: bs) : p b = false := by
  induction l with
  | nil => cases h
  | cons x xs ih =>
    rw [List.dropWhile_cons] at h
    by_cases hp : p x = true
    · rw [if_pos hp] at h
      exact ih h
    · rw [if_neg hp] at h
      injection h with h1 h2
      rw [← h1]
      simpa using hp

theorem getLastD_ne_nil {α : Type} (l : List α) (d1 d2 : α) (h : l ≠ []) :
    l.getLastD d1 = l.getLastD d2 := by
  rw [List.getLastD_eq_getLast?, List.getLastD_eq_getLast?]
  cases hL : l.getLast? with
  | none => exact absurd (List.getLast?_eq_none_iff.mp hL) h
  | some x => rfl

theorem getLastD_mem {α : Type} : ∀ (l : List α) (d : α), l ≠ [] → l.getLastD d ∈ l := by
  intro l
  induction l with
  | nil => intro d h; exact absurd rfl h
  | cons x xs ih =>
    intro d _
    rw [List.getLastD_cons]
    cases hx : xs with
    | nil => simp
    | cons y t =>
      rw [← hx]
      exact List.mem_cons_of_mem x (ih x (by rw [hx]; simp))

/-- In a chronologically sorted sample list every timestamp is at most the
newest one. -/
theorem last_time_max : ∀ (samps : List (ℚ × ℚ)),
    List.Pairwise (fun a b => a.2 ≤ b.2) samps →
    ∀ x ∈ samps, x.2 ≤ (samps.getLastD (0, 0)).2 := by
  intro samps
  induction samps with
  | nil => intro _ x hx; cases hx
  | cons a t ih =>
    intro hs x hx
    rw [List.pairwise_cons] at hs
    by_cases hne : t = []
    · subst hne
      have hxa : x = a := by simpa using hx
      rw [hxa]
      exact le_refl _
    · have hlast : ((a :: t).getLastD (0, 0)) = t.getLastD (0, 0) := by
        rw [List.getLastD_cons]
        exact getLastD_ne_nil _ _ _ hne
      rw [hlast]
      rcases List.mem_cons.mp hx with hxa | hx2
      · rw [hxa]
        exact hs.1 _ (getLastD_mem _ _ hne)
      · exact ih hs.2 x hx2

theorem find?_first {α : Type} (p : α → Bool) (A : List α) (b : α) (bs : List α)
    (hA : ∀ a ∈ A, p a = false) (hb : p b = true) :
    (A ++ b :: bs).find? p = some b := by
  rw [find?_append_none p A _ hA, List.find?_cons, hb]

/-- Relation between the backward scan of rate and find? on the sorted
chronological sample list: when a sample inside the window exists, the scan
returns the oldest such sample (the one find? returns); when none exists,
the scan returns the newest sample unchanged. -/
theorem scanBack_find (samps : List (ℚ × ℚ)) (cutoff : ℚ)
    (hs : List.Pairwise (fun a b => a.2 ≤ b.2) samps) :
    (∀ o, samps.find?
        (fun p => decide (cutoff ≤ p.2 ∧ p.2 ≤ (samps.getLastD (0, 0)).2)) = some o →
      scanBack cutoff ((samps.take (samps.length - 1)).reverse) (samps.getLastD (0, 0)) = o) ∧
    (samps.find?
        (fun p => decide (cutoff ≤ p.2 ∧ p.2 ≤ (samps.getLastD (0, 0)).2)) = none →
      scanBack cutoff ((samps.take (samps.length - 1)).reverse) (samps.getLastD (0, 0)) =
        samps.getLastD (0, 0)) := by
  have hAB := List.takeWhile_append_dropWhile (fun p : ℚ × ℚ => decide (p.2 < cutoff)) samps
  have hA : ∀ a ∈ samps.takeWhile (fun p : ℚ × ℚ => decide (p.2 < cutoff)), a.2 < cutoff := by
    intro a ha
    simpa using List.mem_takeWhile_imp ha
  cases hB : samps.dropWhile (fun p : ℚ × ℚ => decide (p.2 < cutoff)) with
  | nil =>
    have hall : ∀ a ∈ samps, a.2 < cutoff := by
      intro a ha
      apply hA
      rw [← hAB, hB, List.append_nil] at ha
      exact ha
    constructor
    · intro o ho
      exfalso
      have hmem := List.mem_of_find?_eq_some ho
      have hpo := List.find?_some ho
      simp only [decide_eq_true_eq] at hpo
      exact absurd hpo.1 (by push_neg; exact hall o hmem)
    · intro _
      rw [scanBack_eq_takeWhile, takeWhile_nil_of_false]
      · rfl
      · intro a ha
        have ha2 : a ∈ samps := by
          have h1 := List.mem_reverse.mp ha
          exact List.mem_of_mem_take h1
        simp [hall a ha2]
  | cons b bs =>
    have hqb := dropWhile_head_false (fun p : ℚ × ℚ => decide (p.2 < cutoff)) samps b bs hB
    have hble : cutoff ≤ b.2 := by simpa using hqb
    have hPB : List.Pairwise (fun a b : ℚ × ℚ => a.2 ≤ b.2)
        (samps.dropWhile (fun p : ℚ × ℚ => decide (p.2 < cutoff))) :=
      List.Pairwise.sublist (List.dropWhile_sublist _) hs
    rw [hB, List.pairwise_cons] at hPB
    rw [hB] at hAB
    have hlen3 := congrArg List.length hAB
    rw [List.length_append, List.length_cons] at hlen3
    have hBmem : ∀ x ∈ b :: bs, cutoff ≤ x.2 := by
      intro x hx
      rcases List.mem_cons.mp hx with hxb | hx2
      · rw [hxb]; exact hble
      · exact le_trans hble (hPB.1 x hx2)
    have hBne : b :: bs ≠ [] := by simp
    have hBsub : ∀ x ∈ b :: bs, x ∈ samps := by
      intro x hx
      rw [← hAB]
      exact List.mem_append_right _ hx
    have hlastB : samps.getLastD (0, 0) = (b :: bs).getLastD (0, 0) := by
      have h1 := getLastD_append_right
        (samps.takeWhile (fun p : ℚ × ℚ => decide (p.2 < cutoff))) (b :: bs) ((0 : ℚ), (0 : ℚ)) hBne
      rw [hAB] at h1
      exact h1
    have hlast_le := last_time_max samps hs
    have hfind : samps.find?
        (fun p => decide (cutoff ≤ p.2 ∧ p.2 ≤ (samps.getLastD (0, 0)).2)) = some b := by
      have h1 := find?_first
        (fun p : ℚ × ℚ => decide (cutoff ≤ p.2 ∧ p.2 ≤ (samps.getLastD (0, 0)).2))
        (samps.takeWhile (fun p : ℚ × ℚ => decide (p.2 < cutoff))) b bs
        (by
          intro a ha
          simp only [decide_eq_false_iff_not]
          intro hcontra
          exact absurd hcontra.1 (by push_neg; exact hA a ha))
        (by
          simp only [decide_eq_true_eq]
          exact ⟨hble, hlast_le b (hBsub b (List.mem_cons_self _ _))⟩)
      rw [hAB] at h1
      exact h1
    have htake : samps.take (samps.length - 1) =
        samps.takeWhile (fun p : ℚ × ℚ => decide (p.2 < cutoff)) ++ (b :: bs).dropLast := by
      have h1 : (samps.takeWhile (fun p : ℚ × ℚ => decide (p.2 < cutoff)) ++ b :: bs).take
          ((samps.takeWhile (fun p : ℚ × ℚ => decide (p.2 < cutoff)) ++ b :: bs).length - 1) =
          samps.takeWhile (fun p : ℚ × ℚ => decide (p.2 < cutoff)) ++ (b :: bs).dropLast := by
        rw [List.take_append_eq_append_take,
          List.take_of_length_le (by
            simp only [List.length_append, List.length_cons]
            omega)]
        congr 1
        rw [List.dropLast_eq_take]
        congr 1
        simp only [List.length_append, List.length_cons]
        omega
      rw [hAB] at h1
      exact h1
    have hscan2 : scanBack cutoff ((samps.take (samps.length - 1)).reverse)
        (samps.getLastD (0, 0)) = b := by
      rw [htake, hlastB, scanBack_eq_takeWhile, List.reverse_append]
      rw [takeWhile_append_of_true _ _ _ (by
        intro x hx
        have hx2 : x ∈ (b :: bs).dropLast := List.mem_reverse.mp hx
        have hx3 : x ∈ b :: bs := (List.dropLast_sublist _).subset hx2
        simp [not_lt_of_le (hBmem x hx3)])]
      rw [takeWhile_nil_of_false _ _ (by
        intro x hx
        have hx2 := hA x (List.mem_reverse.mp hx)
        simp [hx2]), List.append_nil]
      rw [List.getLastD_eq_getLast?, List.getLast?_reverse]
      cases bs with
      | nil => simp
      | cons c cs =>
        rw [List.dropLast_cons₂]
        simp
    constructor
    · intro o ho
      rw [hfind] at ho
      injection ho with ho1
      rw [← ho1]
      exact hscan2
    · intro hnone
      rw [hfind] at hnone
      cases hnone

/-- The backward ring scan of rate equals the list scan over the reversed
older chronological samples. -/
theorem rateFind_eq_scanBack {s : metricSeries} (h : s.wf) (hn : 2 ≤ s.count)
    (cutoff : ℚ) :
    ∀ (steps j : ℕ) (acc : ℚ × ℚ), 1 ≤ j → j + steps ≤ s.count →
      rateFind s cutoff j steps acc =
        scanBack cutoff
          (((s.chron.drop (s.count - j - steps)).take steps).reverse) acc := by
  intro steps
  induction steps with
  | zero =>
    intro j acc hj hjn
    rfl
  | succ k ih =>
    intro j acc hj hjn
    have hcl : s.chron.length = s.count := chron_length h
    have hidx := scan_index h hn (j := j) hj (by omega)
    have hof : s.count - j - (k + 1) + k = s.count - 1 - j := by omega
    have ha : s.count - j - (k + 1) = s.count - (j + 1) - k := by omega
    have hsome : s.chron[s.count - 1 - j]? =
        some (s.chron.getD (s.count - 1 - j) (0, 0)) := by
      rw [List.getElem?_eq_getElem (by omega), List.getD_eq_getElem _ _ (by omega)]
    have hseg : ((s.chron.drop (s.count - j - (k + 1))).take (k + 1)).reverse =
        s.chron.getD (s.count - 1 - j) (0, 0) ::
          ((s.chron.drop (s.count - (j + 1) - k)).take k).reverse := by
      rw [List.take_succ, List.getElem?_drop, hof, hsome]
      simp [List.reverse_append, ha]
    have hel := chron_getD h (p := s.count - 1 - j) (by omega)
    have hel1 : s.values.getD ((s.startIdx + (s.count - 1 - j)) % ringSize) 0 =
        (s.chron.getD (s.count - 1 - j) (0, 0)).1 := by rw [hel]
    have hel2 : s.times.getD ((s.startIdx + (s.count - 1 - j)) % ringSize) 0 =
        (s.chron.getD (s.count - 1 - j) (0, 0)).2 := by rw [hel]
    have hrf : rateFind s cutoff j (k + 1) acc =
        (if s.times.getD ((s.newestIdx + ringSize - j) % ringSize) 0 < cutoff then acc
         else rateFind s cutoff (j + 1) k
           (s.values.getD ((s.newestIdx + ringSize - j) % ringSize) 0,
            s.times.getD ((s.newestIdx + ringSize - j) % ringSize) 0)) := rfl
    have hsb : scanBack cutoff (s.chron.getD (s.count - 1 - j) (0, 0) ::
        ((s.chron.drop (s.count - (j + 1) - k)).take k).reverse) acc =
        (if (s.chron.getD (s.count - 1 - j) (0, 0)).2 < cutoff then acc
         else scanBack cutoff ((s.chron.drop (s.count - (j + 1) - k)).take k).reverse
           (s.chron.getD (s.count - 1 - j) (0, 0))) := rfl
    rw [hseg, hrf, hsb, hidx, hel1, hel2]
    by_cases hcut : (s.chron.getD (s.count - 1 - j) (0, 0)).2 < cutoff
    · rw [if_pos hcut, if_pos hcut]
    · rw [if_neg hcut, if_neg hcut, Prod.mk.eta]
      exact ih (j + 1) (s.chron.getD (s.count - 1 - j) (0, 0)) (by omega) (by omega)

/-- The rate computation expressed over the chronological sample list:
scan the older samples from newest to oldest, divide the clamped delta by
the elapsed time. -/
theorem rate_eq_list {s : metricSeries} (h : s.wf) (hn : 2 ≤ s.count) (w : ℚ) :
    s.rate w =
      (if (s.chron.getD (s.count - 1) (0, 0)).2 -
          (scanBack ((s.chron.getD (s.count - 1) (0, 0)).2 - w)
            ((s.chron.take (s.count - 1)).reverse)
            (s.chron.getD (s.count - 1) (0, 0))).2 ≤ 0 then 0
       else if (s.chron.getD (s.count - 1) (0, 0)).1 -
          (scanBack ((s.chron.getD (s.count - 1) (0, 0)).2 - w)
            ((s.chron.take (s.count - 1)).reverse)
            (s.chron.getD (s.count - 1) (0, 0))).1 < 0 then 0
       else ((s.chron.getD (s.count - 1) (0, 0)).1 -
          (scanBack ((s.chron.getD (s.count - 1) (0, 0)).2 - w)
            ((s.chron.take (s.count - 1)).reverse)
            (s.chron.getD (s.count - 1) (0, 0))).1) /
          ((s.chron.getD (s.count - 1) (0, 0)).2 -
          (scanBack ((s.chron.getD (s.count - 1) (0, 0)).2 - w)
            ((s.chron.take (s.count - 1)).reverse)
            (s.chron.getD (s.count - 1) (0, 0))).2)) := by
  have hlt : ¬s.count < 2 := by omega
  have hne := newest_chron h (by omega)
  have hv : (s.chron.getD (s.count - 1) (0, 0)).1 = s.values.getD s.newestIdx 0 := by
    rw [hne]
  have ht : (s.chron.getD (s.count - 1) (0, 0)).2 = s.times.getD s.newestIdx 0 := by
    rw [hne]
  have hrf := rateFind_eq_scanBack h hn (s.times.getD s.newestIdx 0 - w)
    (s.count - 1) 1 (s.values.getD s.newestIdx 0, s.times.getD s.newestIdx 0)
    (le_refl 1) (by omega)
  have hz : s.count - 1 - (s.count - 1) = 0 := by omega
  rw [hz, List.drop_zero] at hrf
  have hrate : s.rate w =
      (if s.times.getD s.newestIdx 0 -
          (rateFind s (s.times.getD s.newestIdx 0 - w) 1 (s.count - 1)
            (s.values.getD s.newestIdx 0, s.times.getD s.newestIdx 0)).2 ≤ 0 then 0
       else if s.values.getD s.newestIdx 0 -
          (rateFind s (s.times.getD s.newestIdx 0 - w) 1 (s.count - 1)
            (s.values.getD s.newestIdx 0, s.times.getD s.newestIdx 0)).1 < 0 then 0
       else (s.values.getD s.newestIdx 0 -
          (rateFind s (s.times.getD s.newestIdx 0 - w) 1 (s.count - 1)
            (s.values.getD s.newestIdx 0, s.times.getD s.newestIdx 0)).1) /
          (s.times.getD s.newestIdx 0 -
          (rateFind s (s.times.getD s.newestIdx 0 - w) 1 (s.count - 1)
            (s.values.getD s.newestIdx 0, s.times.getD s.newestIdx 0)).2)) := by
    simp only [rate]
    rw [if_neg hlt]
  rw [hrate, hrf, hv, ht, hne]

/-- The rateSlice loop equals the per-pair list computation over the
chronological samples. -/
theorem rateSliceGo_eq_ratePairs {s : metricSeries} (h : s.wf) :
    ∀ (steps j : ℕ) (prev : ℚ × ℚ), 1 ≤ j → j + steps ≤ s.count →
      rateSliceGo s s.startIdx j steps prev =
        ratePairs prev ((s.chron.drop j).take steps) := by
  intro steps
  induction steps with
  | zero =>
    intro j prev hj hjn
    rfl
  | succ k ih =>
    intro j prev hj hjn
    have hcl : s.chron.length = s.count := chron_length h
    have hel := chron_getD h (p := j) (by omega)
    have hdecomp : (s.chron.drop j).take (k + 1) =
        s.chron.getD j (0, 0) :: (s.chron.drop (j + 1)).take k := by
      rw [List.drop_eq_getElem_cons (by omega), List.take_succ_cons,
        ← List.getD_eq_getElem s.chron ((0 : ℚ), (0 : ℚ)) (by omega)]
    have hrg : rateSliceGo s s.startIdx j (k + 1) prev =
        (if 0 < s.times.getD ((s.startIdx + j) % ringSize) 0 - prev.2 then
          (if s.values.getD ((s.startIdx + j) % ringSize) 0 - prev.1 < 0 then 0
           else s.values.getD ((s.startIdx + j) % ringSize) 0 - prev.1) /
            (s.times.getD ((s.startIdx + j) % ringSize) 0 - prev.2)
         else 0) ::
          rateSliceGo s s.startIdx (j + 1) k
            (s.values.getD ((s.startIdx + j) % ringSize) 0,
             s.times.getD ((s.startIdx + j) % ringSize) 0) := rfl
    have hrp : ratePairs prev (s.chron.getD j (0, 0) :: (s.chron.drop (j + 1)).take k) =
        (if 0 < (s.chron.getD j (0, 0)).2 - prev.2 then
          (if (s.chron.getD j (0, 0)).1 - prev.1 < 0 then 0
           else (s.chron.getD j (0, 0)).1 - prev.1) / ((s.chron.getD j (0, 0)).2 - prev.2)
         else 0) :: ratePairs (s.chron.getD j (0, 0)) ((s.chron.drop (j + 1)).take k) := rfl
    have hel1 : s.values.getD ((s.startIdx + j) % ringSize) 0 =
        (s.chron.getD j (0, 0)).1 := by rw [hel]
    have hel2 : s.times.getD ((s.startIdx + j) % ringSize) 0 =
        (s.chron.getD j (0, 0)).2 := by rw [hel]
    rw [hdecomp, hrg, hrp, hel1, hel2, Prod.mk.eta]
    congr 1
    exact ih (j + 1) _ (by omega) (by omega)

/-- rateSlice over a well-formed buffer with at least two samples is the
per-pair rate list over the chronological samples. -/
theorem rateSlice_eq_ratePairs {s : metricSeries} (h : s.wf) (hn : 2 ≤ s.count)
    (w : ℚ) :
    s.rateSlice w = ratePairs (s.chron.getD 0 (0, 0)) (s.chron.drop 1) := by
  have hcl := chron_length h
  have hmod : s.startIdx % ringSize = s.startIdx := by
    obtain ⟨h1, h2, h3⟩ := h
    unfold startIdx
    split
    · exact Nat.mod_eq_of_lt h3
    · simp
  have hel := chron_getD h (p := 0) (by omega)
  rw [Nat.add_zero] at hel
  have hgo := rateSliceGo_eq_ratePairs h (s.count - 1) 1
    (s.values.getD (s.startIdx % ringSize) 0, s.times.getD (s.startIdx % ringSize) 0)
    (le_refl 1) (by omega)
  have hseg : (s.chron.drop 1).take (s.count - 1) = s.chron.drop 1 :=
    List.take_of_length_le (by
      rw [List.length_drop, hcl])
  rw [hseg] at hgo
  have hrs : s.rateSlice w = rateSliceGo s s.startIdx 1 (s.count - 1)
      (s.values.getD (s.startIdx % ringSize) 0, s.times.getD (s.startIdx % ringSize) 0) := by
    simp only [rateSlice]
    rw [if_neg (by omega)]
    rfl
  rw [hrs, hgo, ← hel]

theorem ratePairs_length : ∀ (l : List (ℚ × ℚ)) (prev : ℚ × ℚ),
    (ratePairs prev l).length = l.length := by
  intro l
  induction l with
  | nil => intro prev; rfl
  | cons x rest ih =>
    intro prev
    simp only [ratePairs, List.length_cons, ih x]

/-- The per-pair rate list is the map of the clamped-delta quotient over
consecutive chronological pairs. -/
theorem ratePairs_eq_zip : ∀ (l : List (ℚ × ℚ)) (prev : ℚ × ℚ),
    ratePairs prev l = ((prev :: l).zip l).map
      (fun q => if 0 < q.2.2 - q.1.2 then max 0 (q.2.1 - q.1.1) / (q.2.2 - q.1.2) else 0) := by
  intro l
  induction l with
  | nil => intro prev; rfl
  | cons x rest ih =>
    intro prev
    have h1 : ratePairs prev (x :: rest) =
        (if 0 < x.2 - prev.2 then
          (if x.1 - prev.1 < 0 then 0 else x.1 - prev.1) / (x.2 - prev.2)
         else 0) :: ratePairs x rest := rfl
    have h2 : (prev :: x :: rest).zip (x :: rest) = (prev, x) :: ((x :: rest).zip rest) := rfl
    rw [h1, ih x, h2, List.map_cons]
    congr 1
    show (if 0 < x.2 - prev.2 then
        (if x.1 - prev.1 < 0 then 0 else x.1 - prev.1) / (x.2 - prev.2)
      else 0) =
      if 0 < x.2 - prev.2 then max 0 (x.1 - prev.1) / (x.2 - prev.2) else 0
    by_cases hdt : 0 < x.2 - prev.2
    · rw [if_pos hdt, if_pos hdt]
      congr 1
      by_cases hd : x.1 - prev.1 < 0
      · rw [if_pos hd, max_eq_left (by linarith)]
      · rw [if_neg hd, max_eq_right (by linarith)]
    · rw [if_neg hdt, if_neg hdt]

end metricSeries

/-- C4: with fewer than two samples rateSlice is empty; with N ≥ 2 samples
it is exactly one value per consecutive chronological pair across the whole
buffer, each the clamped delta over the elapsed time (0 for non-positive
elapsed time), so it has exactly N - 1 entries. -/
theorem C4_rateSlice (s : metricSeries) (w : ℚ) (h : s.wf) :
    (s.count < 2 → s.rateSlice w = []) ∧
    (2 ≤ s.count →
      s.rateSlice w = (s.chron.zip s.chron.tail).map
        (fun q => if 0 < q.2.2 - q.1.2 then max 0 (q.2.1 - q.1.1) / (q.2.2 - q.1.2)
          else 0) ∧
      (s.rateSlice w).length = s.count - 1) := by
  constructor
  · intro hlt
    simp only [metricSeries.rateSlice]
    rw [if_pos hlt]
  · intro hn
    have hre := metricSeries.rateSlice_eq_ratePairs h hn w
    have hcl := metricSeries.chron_length h
    have hchne : s.chron ≠ [] := by
      intro hnil
      rw [hnil] at hcl
      simp at hcl
      omega
    obtain ⟨a, t, hat⟩ : ∃ a t, s.chron = a :: t := by
      cases hc : s.chron with
      | nil => exact absurd hc hchne
      | cons a t => exact ⟨a, t, rfl⟩
    have hhead : s.chron.getD 0 (0, 0) = a := by rw [hat]; rfl
    have htail : s.chron.drop 1 = t := by rw [hat]; rfl
    constructor
    · rw [hre, hhead, htail, metricSeries.ratePairs_eq_zip t a, hat]
      simp only [List.tail_cons]
    · rw [hre, metricSeries.ratePairs_length, List.length_drop, hcl]

set_option maxRecDepth 40000 in
unseal Rat.add Rat.sub Rat.mul Rat.inv Nat.gcd in
/-- Closed witness for C4 on three pushes 0, 10, 10 at times 0, 1, 3: two
rates, 10 for the first pair and 0 for the flat second pair. -/
theorem C4_rateSlice_witness :
    (metricSeries.init.pushAll [((0 : ℚ), (0 : ℚ)), (10, 1), (10, 3)]).rateSlice 0 =
      [10, 0] ∧
    ((metricSeries.init.pushAll [((0 : ℚ), (0 : ℚ)), (10, 1), (10, 3)]).rateSlice 0).length
      = 2 := by
  have h := (C4_rateSlice (metricSeries.init.pushAll [((0 : ℚ), (0 : ℚ)), (10, 1), (10, 3)])
    0 (by decide)).2 (by decide)
  constructor
  · rw [h.1]
    decide
  · rw [h.2]
    decide

set_option maxRecDepth 40000 in
unseal Rat.add Rat.sub Rat.mul Rat.inv Nat.gcd in
/-- C5: rateSlice is completely independent of its window argument, while
the scalar rate does depend on the window (shown on a concrete buffer whose
rate over a 1-second window differs from its rate over a 2-second window):
the window restricts the scalar rate's sample range only. -/
theorem C5_window_asymmetry :
    (∀ (s : metricSeries) (w1 w2 : ℚ), s.rateSlice w1 = s.rateSlice w2) ∧
    (metricSeries.init.pushAll [((0 : ℚ), (0 : ℚ)), (10, 1), (30, 2)]).rate 1 ≠
      (metricSeries.init.pushAll [((0 : ℚ), (0 : ℚ)), (10, 1), (30, 2)]).rate 2 := by
  refine ⟨fun s w1 w2 => rfl, by decide⟩

set_option maxRecDepth 40000 in
unseal Rat.add Rat.sub Rat.mul Rat.inv Nat.gcd in
/-- C2: rate is 0 with fewer than two samples; with at least two samples
(chronologically ordered timestamps, as produced by the monotone clock) it
equals the clamped delta between the newest sample and the oldest sample
inside the window [newest time - w, newest time], divided by their elapsed
time, 0 when that elapsed time is not positive or when no sample lies in
the window; the result is never negative; pushes 100 then 50 one second
apart give rate 0 for every window, and a counter 100..150 at one-second
spacing gives rate(5) within 0.1 of 10. -/
theorem C2_rate (s : metricSeries) (w : ℚ) (hwf : s.wf)
    (hs : List.Pairwise (fun a b : ℚ × ℚ => a.2 ≤ b.2) s.chron) :
    (s.count < 2 → s.rate w = 0) ∧
    (∀ v0 t0 : ℚ, 2 ≤ s.count →
      s.chron.find? (fun p => decide ((s.chron.getD (s.count - 1) (0, 0)).2 - w ≤ p.2 ∧
        p.2 ≤ (s.chron.getD (s.count - 1) (0, 0)).2)) = some (v0, t0) →
      (((s.chron.getD (s.count - 1) (0, 0)).2 - t0 ≤ 0 → s.rate w = 0) ∧
       (0 < (s.chron.getD (s.count - 1) (0, 0)).2 - t0 →
         s.rate w = max 0 ((s.chron.getD (s.count - 1) (0, 0)).1 - v0) /
           ((s.chron.getD (s.count - 1) (0, 0)).2 - t0)))) ∧
    (2 ≤ s.count →
      s.chron.find? (fun p => decide ((s.chron.getD (s.count - 1) (0, 0)).2 - w ≤ p.2 ∧
        p.2 ≤ (s.chron.getD (s.count - 1) (0, 0)).2)) = none →
      s.rate w = 0) ∧
    0 ≤ s.rate w ∧
    (∀ w2 : ℚ, (metricSeries.init.pushAll [((100 : ℚ), (0 : ℚ)), (50, 1)]).rate w2 = 0) ∧
    |(metricSeries.init.pushAll
        [((100 : ℚ), (0 : ℚ)), (110, 1), (120, 2), (130, 3), (140, 4), (150, 5)]).rate 5
      - 10| ≤ 1 / 10 := by
  have hcl := metricSeries.chron_length hwf
  have hgl : s.chron.getLastD ((0 : ℚ), (0 : ℚ)) = s.chron.getD (s.count - 1) (0, 0) := by
    rw [metricSeries.getLastD_eq_getD, hcl]
  refine ⟨?_, ?_, ?_, metricSeries.rate_nonneg s w, ?_, ?_⟩
  · intro hlt
    simp only [metricSeries.rate]
    rw [if_pos hlt]
  · intro v0 t0 hn hfind
    have hco := metricSeries.scanBack_find s.chron
      ((s.chron.getD (s.count - 1) (0, 0)).2 - w) hs
    rw [hgl, hcl] at hco
    have hsc := hco.1 (v0, t0) hfind
    rw [metricSeries.rate_eq_list hwf hn w, hsc]
    constructor
    · intro hel
      rw [if_pos hel]
    · intro hel
      rw [if_neg (not_le.mpr hel)]
      by_cases hd : (s.chron.getD (s.count - 1) (0, 0)).1 - v0 < 0
      · rw [if_pos hd, max_eq_left (by linarith), zero_div]
      · rw [if_neg hd, max_eq_right (by linarith)]
  · intro hn hfind
    have hco := metricSeries.scanBack_find s.chron
      ((s.chron.getD (s.count - 1) (0, 0)).2 - w) hs
    rw [hgl, hcl] at hco
    have hsc := hco.2 hfind
    rw [metricSeries.rate_eq_list hwf hn w, hsc, if_pos (by simp)]
  · intro w2
    have hwf1 : (metricSeries.init.pushAll [((100 : ℚ), (0 : ℚ)), (50, 1)]).wf :=
      metricSeries.wf_pushAll metricSeries.wf_init _
    have hcnt : (metricSeries.init.pushAll [((100 : ℚ), (0 : ℚ)), (50, 1)]).count = 2 := by
      decide
    have hch : (metricSeries.init.pushAll [((100 : ℚ), (0 : ℚ)), (50, 1)]).chron =
        [(100, 0), (50, 1)] := by decide
    rw [metricSeries.rate_eq_list hwf1 (by decide) w2, hch, hcnt]
    have e1 : ([((100 : ℚ), (0 : ℚ)), (50, 1)].getD (2 - 1) (0, 0)) = (50, 1) := by decide
    have e2 : (([((100 : ℚ), (0 : ℚ)), (50, 1)].take (2 - 1)).reverse) = [(100, 0)] := by
      decide
    rw [e1, e2]
    by_cases hw : (0 : ℚ) < 1 - w2
    · have hsb : metricSeries.scanBack (((50 : ℚ), (1 : ℚ)).2 - w2)
          [((100 : ℚ), (0 : ℚ))] ((50 : ℚ), (1 : ℚ)) = (50, 1) := by
        have hstep : metricSeries.scanBack (((50 : ℚ), (1 : ℚ)).2 - w2)
            [((100 : ℚ), (0 : ℚ))] ((50 : ℚ), (1 : ℚ)) =
            if ((100 : ℚ), (0 : ℚ)).2 < ((50 : ℚ), (1 : ℚ)).2 - w2 then ((50 : ℚ), (1 : ℚ))
            else metricSeries.scanBack (((50 : ℚ), (1 : ℚ)).2 - w2) [] ((100 : ℚ), (0 : ℚ)) :=
          rfl
        rw [hstep, if_pos (by push_cast; linarith)]
      rw [hsb, if_pos (by norm_num)]
    · have hsb : metricSeries.scanBack (((50 : ℚ), (1 : ℚ)).2 - w2)
          [((100 : ℚ), (0 : ℚ))] ((50 : ℚ), (1 : ℚ)) = (100, 0) := by
        have hstep : metricSeries.scanBack (((50 : ℚ), (1 : ℚ)).2 - w2)
            [((100 : ℚ), (0 : ℚ))] ((50 : ℚ), (1 : ℚ)) =
            if ((100 : ℚ), (0 : ℚ)).2 < ((50 : ℚ), (1 : ℚ)).2 - w2 then ((50 : ℚ), (1 : ℚ))
            else metricSeries.scanBack (((50 : ℚ), (1 : ℚ)).2 - w2) [] ((100 : ℚ), (0 : ℚ)) :=
          rfl
        rw [hstep, if_neg (by push_cast at hw ⊢; linarith)]
        rfl
      rw [hsb, if_neg (by norm_num), if_pos (by norm_num)]
  · decide

set_option maxRecDepth 40000 in
unseal Rat.add Rat.sub Rat.mul Rat.inv Nat.gcd in
/-- Closed witness for C2: the counter 100..150 at one-second spacing has
rate exactly 10 over the 5-second window. -/
theorem C2_rate_witness :
    (metricSeries.init.pushAll
      [((100 : ℚ), (0 : ℚ)), (110, 1), (120, 2), (130, 3), (140, 4), (150, 5)]).rate 5
      = 10 := by
  have h := (C2_rate (metricSeries.init.pushAll
      [((100 : ℚ), (0 : ℚ)), (110, 1), (120, 2), (130, 3), (140, 4), (150, 5)]) 5
      (by decide) (by decide)).2.1 100 0 (by decide) (by decide)
  rw [h.2 (by decide)]
  decide

end MadVisor
